import Mathlib

/- Shallow embedding of pkg/controller/uniteddeployment/allocator.go
   (the UnitedDeployment replica allocator).
   Go int32 arithmetic is modelled by Int; Go integer division and
   remainder truncate toward zero, which is Int.tdiv and Int.tmod.
   Go maps are modelled as insertion-ordered association lists with
   unique keys; a Go map lookup is List.lookup. -/

namespace Allocator

/-- Embeds the Go struct nameToReplicas: one allocation record per subset
(name, current-then-target replicas, and the pinned flag set by the fair
path). -/
structure NameToReplicas where
  subsetName : String
  replicas : Int
  specified : Bool
  deriving DecidableEq, Repr

/-- Embeds subsetInfos.Less (allocator.go:45-51): order records by replicas,
breaking ties by name (strings.Compare on UTF-8 bytes agrees with the
code-point order of Lean strings). -/
def less (a b : NameToReplicas) : Bool :=
  if a.replicas ≠ b.replicas then decide (a.replicas < b.replicas)
  else decide (a.subsetName < b.subsetName)

/-- The non-strict order induced by Less, as used by Go sort.Sort: a record
may precede b exactly when Less b a fails. -/
def leOrder (a b : NameToReplicas) : Bool := ! less b a

/-- Embeds SortToAllocator (allocator.go:68-71): sort the records ascending
by (replicas, name). Go sort.Sort is unstable, but any sort agreeing with
Less produces this result when names are unique. -/
def sortSubsets (l : List NameToReplicas) : List NameToReplicas :=
  l.mergeSort leOrder

/-- Sum of the values of the specified-replica map
(allocator.go:82-85; map iteration order only feeds a commutative sum). -/
def specifiedSum (S : List (String × Int)) : Int := (S.map Prod.snd).sum

/-- Count of records whose name is a key of the specified map
(allocator.go:90-96). -/
def specifiedCount (S : List (String × Int)) (l : List NameToReplicas) : Nat :=
  (l.filter (fun r => (S.lookup r.subsetName).isSome)).length

/-- Embeds effectiveReplicas (allocator.go:77-103): the feasibility check. -/
def effectiveReplicas (replicas : Int) (limits : Option (List (String × Int)))
    (subsets : List NameToReplicas) : Bool × String :=
  match limits with
  | none => (true, "")
  | some S =>
    if specifiedSum S > replicas then
      (false, "Specified subsets replica (" ++ toString (specifiedSum S) ++
        ") is greater than UnitedDeployment replica (" ++ toString replicas ++ ")")
    else if specifiedSum S < replicas && specifiedCount S subsets == subsets.length then
      (false, "Specified subsets replica (" ++ toString (specifiedSum S) ++
        ") is less than UnitedDeployment replica (" ++ toString replicas ++ ")")
    else (true, "")

/-- Step 1 of normalAllocate (allocator.go:156-163): a record named in the
specified map takes the specified value and is marked pinned. -/
def applySpec (S : List (String × Int)) (r : NameToReplicas) : NameToReplicas :=
  match S.lookup r.subsetName with
  | some v => { r with replicas := v, specified := true }
  | none => r

/-- The sum the Go loop accumulates in specifiedReplicas
(allocator.go:157-160): specified values summed once per matching record. -/
def recordSpecSum (S : List (String × Int)) (l : List NameToReplicas) : Int :=
  (l.filterMap (fun r => S.lookup r.subsetName)).sum

/-- Step 2 of normalAllocate (allocator.go:171-191) acting on the reversed
record list (the Go loop walks from the highest index down): skip pinned
records; an unpinned record takes average+1 while the remainder lasts,
average afterwards. -/
def distributeRev (average : Int) : Int → List NameToReplicas → List NameToReplicas
  | _, [] => []
  | remainder, r :: rs =>
    if r.specified then r :: distributeRev average remainder rs
    else if 0 < remainder then
      { r with replicas := average + 1 } :: distributeRev average (remainder - 1) rs
    else { r with replicas := average } :: distributeRev average remainder rs

/-- Embeds normalAllocate (allocator.go:152-194) on the record list. -/
def normalAllocate (expectedReplicas : Int) (S : List (String × Int))
    (subsets : List NameToReplicas) : List NameToReplicas :=
  let step1 := subsets.map (applySpec S)
  let leftCount := subsets.length - specifiedCount S subsets
  if leftCount ≠ 0 then
    let allocatable := expectedReplicas - recordSpecSum S subsets
    let average := Int.tdiv allocatable (leftCount : Int)
    let remainder := Int.tmod allocatable (leftCount : Int)
    (distributeRev average remainder step1.reverse).reverse
  else step1

/-- The scale-out exclusion loop (allocator.go:209-228) acting on the
reversed record list (head = highest index / most replicas). Returns the
remaining total to distribute, the excluded records (those left unchanged)
and the considered range, still in reversed orientation. -/
def peelHigh : Int → List NameToReplicas → Int × List NameToReplicas × List NameToReplicas
  | e, [] => (e, [], [])
  | e, r :: rs =>
    let cnt : Int := (rs.length : Int) + 1
    let average := Int.tdiv e cnt
    let consideredAverage := if 0 < Int.tmod e cnt then average + 1 else average
    if consideredAverage < r.replicas then
      let p := peelHigh (e - r.replicas) rs
      (p.1, r :: p.2.1, p.2.2)
    else (e, [], r :: rs)

/-- The scale-out distribution loop (allocator.go:230-237) on the reversed
considered range: the records nearest the high end take average+1 while the
remainder lasts. -/
def distHigh (average : Int) : Int → List NameToReplicas → List NameToReplicas
  | _, [] => []
  | remainder, r :: rs =>
    if 0 < remainder then
      { r with replicas := average + 1 } :: distHigh average (remainder - 1) rs
    else { r with replicas := average } :: distHigh average remainder rs

/-- The diff > 0 branch of incrementalAllocate (allocator.go:203-238). -/
def incHigh (expectedReplicas : Int) (l : List NameToReplicas) : List NameToReplicas :=
  let p := peelHigh expectedReplicas l.reverse
  let cnt : Int := (p.2.2.length : Int)
  (p.2.1 ++ distHigh (Int.tdiv p.1 cnt) (Int.tmod p.1 cnt) p.2.2).reverse

/-- The scale-in exclusion loop (allocator.go:240-253) on the record list
itself (head = index 0 / fewest replicas). Returns the remaining total, the
excluded prefix (left unchanged) and the considered range. -/
def peelLow : Int → List NameToReplicas → Int × List NameToReplicas × List NameToReplicas
  | e, [] => (e, [], [])
  | e, r :: rs =>
    let cnt : Int := (rs.length : Int) + 1
    let average := Int.tdiv e cnt
    if average > r.replicas then
      let p := peelLow (e - r.replicas) rs
      (p.1, r :: p.2.1, p.2.2)
    else (e, [], r :: rs)

/-- The scale-in distribution loop (allocator.go:255-262): leftSubsetsCount
starts at the size of the considered range and decrements on every record
that takes the plain average; once it reaches the remainder, every further
record takes average+1. -/
def distLow (average remainder : Int) : Int → List NameToReplicas → List NameToReplicas
  | _, [] => []
  | left, r :: rs =>
    if left ≤ remainder then
      { r with replicas := average + 1 } :: distLow average remainder left rs
    else { r with replicas := average } :: distLow average remainder (left - 1) rs

/-- The diff < 0 branch of incrementalAllocate (allocator.go:240-262). -/
def incLow (expectedReplicas : Int) (l : List NameToReplicas) : List NameToReplicas :=
  let p := peelLow expectedReplicas l
  let cnt : Int := (p.2.2.length : Int)
  p.2.1 ++ distLow (Int.tdiv p.1 cnt) (Int.tmod p.1 cnt) cnt p.2.2

/-- Sum of the current replicas of a record list (allocator.go:197-200). -/
def sumRepl (l : List NameToReplicas) : Int := (l.map (·.replicas)).sum

/-- Embeds incrementalAllocate (allocator.go:196-266) on the record list. -/
def incrementalAllocate (expectedReplicas : Int) (l : List NameToReplicas) :
    List NameToReplicas :=
  let diff := expectedReplicas - sumRepl l
  if 0 < diff then incHigh expectedReplicas l
  else if diff < 0 then incLow expectedReplicas l
  else l

/-- Go map insertion on an insertion-ordered association list: overwrite the
entry of an existing key, append a fresh key. -/
def insertAL (m : List (String × Int)) (k : String) (v : Int) : List (String × Int) :=
  if (m.lookup k).isSome then m.map (fun p => if p.1 = k then (k, v) else p)
  else m ++ [(k, v)]

/-- Embeds toSubsetReplicaMap (allocator.go:268-275): the name-to-replicas
result map built from the records. -/
def toSubsetReplicaMap (l : List NameToReplicas) : List (String × Int) :=
  l.foldl (fun m r => insertAL m r.subsetName r.replicas) []

/-- The record list after AllocateReplicas has run one of the two paths
(allocator.go:143-150). A nil specified map would make the Go code panic
inside normalAllocate; every caller passes a non-nil, possibly empty, map,
modelled by `some`. -/
def allocatedRecords (replicas : Int) (limits : Option (List (String × Int)))
    (subsets : List NameToReplicas) : List NameToReplicas :=
  if (effectiveReplicas replicas limits subsets).1 then
    normalAllocate replicas (limits.getD []) subsets
  else incrementalAllocate replicas subsets

/-- Embeds AllocateReplicas (allocator.go:143-150): the allocation map, the
feasibility flag and the reason string. -/
def AllocateReplicas (replicas : Int) (limits : Option (List (String × Int)))
    (subsets : List NameToReplicas) : List (String × Int) × Bool × String :=
  (toSubsetReplicaMap (allocatedRecords replicas limits subsets),
   (effectiveReplicas replicas limits subsets).1,
   (effectiveReplicas replicas limits subsets).2)

/-- A topology subset definition: a name and an optional declarative replica
spec of opaque form σ, parsed by the external collaborator. -/
structure SubsetDef (σ : Type) where
  name : String
  replicas : Option σ

/-- Embeds getSpecifiedSubsetReplicas (allocator.go:105-126); the external
ParseSubsetReplicas collaborator is the parameter `parse` (none models a
parse error, which only drops the subset from the map). -/
def getSpecifiedSubsetReplicas {σ : Type} (parse : Int → σ → Option Int)
    (total : Int) (topo : List (SubsetDef σ)) : List (String × Int) :=
  topo.foldl (fun acc d =>
    match d.replicas with
    | none => acc
    | some sp =>
      match parse total sp with
      | some v => insertAL acc d.name v
      | none => acc) []

/-- Embeds getSubsetInfos (allocator.go:128-139): one record per topology
subset; a subset absent from the current-state lookup counts 0 replicas,
and the pinned flag starts false. -/
def getSubsetInfos {σ : Type} (nameToSubset : List (String × Int))
    (topo : List (SubsetDef σ)) : List NameToReplicas :=
  topo.map (fun d => ⟨d.name, (nameToSubset.lookup d.name).getD 0, false⟩)

/-- Embeds GetAllocatedReplicas (allocator.go:60-66): build the records,
derive the specified map, sort, then allocate. -/
def GetAllocatedReplicas {σ : Type} (parse : Int → σ → Option Int)
    (nameToSubset : List (String × Int)) (total : Int)
    (topo : List (SubsetDef σ)) : List (String × Int) × Bool × String :=
  AllocateReplicas total (some (getSpecifiedSubsetReplicas parse total topo))
    (sortSubsets (getSubsetInfos nameToSubset topo))

/-- Embeds String (allocator.go:277-285): re-sort the records and fold a
debug line. -/
def debugString (l : List NameToReplicas) : String :=
  (sortSubsets l).foldl
    (fun res r => res ++ " " ++ r.subsetName ++ " -> " ++ toString r.replicas ++ ";") ""

/-- Number of unpinned records. -/
def unspecCount (l : List NameToReplicas) : Nat :=
  (l.filter (fun r => !r.specified)).length

/- ### Lemmas about the fair-path distribution loop -/

lemma distributeRev_specified_filter (average : Int) :
    ∀ (l : List NameToReplicas) (remainder : Int),
      (distributeRev average remainder l).filter (·.specified)
        = l.filter (·.specified) := by
  intro l
  induction l with
  | nil => intro remainder; rfl
  | cons r rs ih =>
    intro remainder
    by_cases hs : r.specified
    · simp [distributeRev, hs, List.filter_cons, ih]
    · by_cases hr : 0 < remainder <;>
        simp [distributeRev, hs, hr, List.filter_cons, ih]

lemma distributeRev_map_name (average : Int) :
    ∀ (l : List NameToReplicas) (remainder : Int),
      (distributeRev average remainder l).map (·.subsetName)
        = l.map (·.subsetName) := by
  intro l
  induction l with
  | nil => intro remainder; rfl
  | cons r rs ih =>
    intro remainder
    by_cases hs : r.specified
    · simp [distributeRev, hs, ih]
    · by_cases hr : 0 < remainder <;> simp [distributeRev, hs, hr, ih]

lemma distributeRev_mem_specified (average : Int) :
    ∀ (l : List NameToReplicas) (remainder : Int) (r : NameToReplicas),
      r ∈ l → r.specified = true → r ∈ distributeRev average remainder l := by
  intro l
  induction l with
  | nil => intro _ r h; cases h
  | cons a rs ih =>
    intro remainder r hmem hspec
    rcases List.mem_cons.mp hmem with h | h
    · subst h
      simp [distributeRev, hspec]
    · by_cases hs : a.specified
      · simp only [distributeRev, hs, if_true]
        exact List.mem_cons_of_mem _ (ih _ r h hspec)
      · simp only [distributeRev, hs]
        by_cases hr : 0 < remainder <;>
          simp only [hr, if_true, if_false, Bool.false_eq_true] <;>
          exact List.mem_cons_of_mem _ (ih _ r h hspec)

lemma mem_distributeRev (average : Int) :
    ∀ (l : List NameToReplicas) (remainder : Int) (r : NameToReplicas),
      r ∈ distributeRev average remainder l →
        (r.specified = true ∧ r ∈ l) ∨
        (∃ s ∈ l, s.specified = false ∧ r.subsetName = s.subsetName ∧
          r.specified = false ∧
          (r.replicas = average ∨ r.replicas = average + 1)) := by
  intro l
  induction l with
  | nil => intro _ r h; cases h
  | cons a rs ih =>
    intro remainder r hmem
    by_cases hs : a.specified
    · simp only [distributeRev, hs, if_true, List.mem_cons] at hmem
      rcases hmem with h | h
      · subst h; exact Or.inl ⟨hs, List.mem_cons_self _ _⟩
      · rcases ih _ r h with ⟨h1, h2⟩ | ⟨s, hsm, hrest⟩
        · exact Or.inl ⟨h1, List.mem_cons_of_mem _ h2⟩
        · exact Or.inr ⟨s, List.mem_cons_of_mem _ hsm, hrest⟩
    · simp only [Bool.not_eq_true] at hs
      by_cases hr : 0 < remainder
      · simp only [distributeRev, hs, hr, if_true, if_false,
          Bool.false_eq_true, List.mem_cons] at hmem
        rcases hmem with h | h
        · subst h
          exact Or.inr ⟨a, List.mem_cons_self _ _, hs, rfl, rfl, Or.inr rfl⟩
        · rcases ih _ r h with ⟨h1, h2⟩ | ⟨s, hsm, hrest⟩
          · exact Or.inl ⟨h1, List.mem_cons_of_mem _ h2⟩
          · exact Or.inr ⟨s, List.mem_cons_of_mem _ hsm, hrest⟩
      · simp only [distributeRev, hs, hr, if_true, if_false,
          Bool.false_eq_true, List.mem_cons] at hmem
        rcases hmem with h | h
        · subst h
          exact Or.inr ⟨a, List.mem_cons_self _ _, hs, rfl, rfl, Or.inl rfl⟩
        · rcases ih _ r h with ⟨h1, h2⟩ | ⟨s, hsm, hrest⟩
          · exact Or.inl ⟨h1, List.mem_cons_of_mem _ h2⟩
          · exact Or.inr ⟨s, List.mem_cons_of_mem _ hsm, hrest⟩

lemma sumRepl_cons (r : NameToReplicas) (l : List NameToReplicas) :
    sumRepl (r :: l) = r.replicas + sumRepl l := by simp [sumRepl]

lemma distributeRev_unspec_map (average : Int) :
    ∀ (l : List NameToReplicas) (remainder : Int),
      0 ≤ remainder → remainder ≤ (unspecCount l : Int) →
      ((distributeRev average remainder l).filter (fun r => !r.specified)).map
          (·.replicas)
        = List.replicate remainder.toNat (average + 1) ++
          List.replicate (unspecCount l - remainder.toNat) average := by
  intro l
  induction l with
  | nil =>
    intro remainder h0 hle
    simp only [unspecCount, List.filter_nil, List.length_nil,
      Nat.cast_zero] at hle
    have h : remainder = 0 := le_antisymm hle h0
    subst h
    simp [distributeRev, unspecCount]
  | cons a rs ih =>
    intro remainder h0 hle
    by_cases hs : a.specified
    · have hcount : unspecCount (a :: rs) = unspecCount rs := by
        simp [unspecCount, List.filter_cons, hs]
      rw [hcount] at hle ⊢
      simp only [distributeRev, hs, if_true, List.filter_cons]
      simpa [hs] using ih remainder h0 hle
    · simp only [Bool.not_eq_true] at hs
      have hcount : unspecCount (a :: rs) = unspecCount rs + 1 := by
        simp [unspecCount, List.filter_cons, hs]
      rw [hcount] at hle ⊢
      by_cases hr : 0 < remainder
      · have htn : remainder.toNat = (remainder - 1).toNat + 1 := by omega
        have hsub : unspecCount rs + 1 - ((remainder - 1).toNat + 1)
            = unspecCount rs - (remainder - 1).toNat := by omega
        simp only [distributeRev, hs, hr, if_true, if_false,
          Bool.false_eq_true, List.filter_cons]
        rw [htn, hsub]
        simp only [List.replicate_succ, List.cons_append]
        simpa [hs] using ih (remainder - 1) (by omega) (by omega)
      · have hr0 : remainder = 0 := le_antisymm (not_lt.mp hr) h0
        subst hr0
        have hsub : unspecCount rs + 1 - (0 : Int).toNat
            = (unspecCount rs - (0 : Int).toNat) + 1 := by omega
        simp only [distributeRev, hs, lt_self_iff_false, if_false,
          Bool.false_eq_true, List.filter_cons]
        rw [hsub]
        simp only [List.replicate_succ, Int.toNat_zero, List.replicate_zero,
          List.nil_append]
        have := ih 0 le_rfl (by exact_mod_cast Nat.zero_le _)
        simp only [Int.toNat_zero, List.replicate_zero, List.nil_append] at this
        simpa [hs] using this

lemma distributeRev_sum (average : Int) :
    ∀ (l : List NameToReplicas) (remainder : Int),
      0 ≤ remainder → remainder ≤ (unspecCount l : Int) →
      sumRepl (distributeRev average remainder l)
        = sumRepl (l.filter (·.specified)) + average * (unspecCount l : Int) +
            remainder := by
  intro l
  induction l with
  | nil =>
    intro remainder h0 hle
    simp only [unspecCount, List.filter_nil, List.length_nil,
      Nat.cast_zero] at hle
    have h : remainder = 0 := le_antisymm hle h0
    subst h
    simp [distributeRev, sumRepl, unspecCount]
  | cons a rs ih =>
    intro remainder h0 hle
    by_cases hs : a.specified
    · have hcount : unspecCount (a :: rs) = unspecCount rs := by
        simp [unspecCount, List.filter_cons, hs]
      rw [hcount] at hle ⊢
      simp only [distributeRev, hs, if_true, List.filter_cons, sumRepl_cons]
      rw [ih remainder h0 hle]
      ring
    · simp only [Bool.not_eq_true] at hs
      have hcount : unspecCount (a :: rs) = unspecCount rs + 1 := by
        simp [unspecCount, List.filter_cons, hs]
      rw [hcount] at hle ⊢
      by_cases hr : 0 < remainder
      · simp only [distributeRev, hs, hr, if_true, if_false,
          Bool.false_eq_true, List.filter_cons, sumRepl_cons]
        rw [ih (remainder - 1) (by omega) (by omega)]
        push_cast
        ring
      · have hr0 : remainder = 0 := le_antisymm (not_lt.mp hr) h0
        subst hr0
        simp only [distributeRev, hs, lt_self_iff_false, if_false,
          Bool.false_eq_true, List.filter_cons, sumRepl_cons]
        rw [ih 0 le_rfl (by exact_mod_cast Nat.zero_le _)]
        push_cast
        ring

/- ### Association-list lemmas (Go map content under unique keys) -/

lemma lookup_eq_none_of_forall {m : List (String × Int)} {k : String}
    (h : ∀ p ∈ m, p.1 ≠ k) : m.lookup k = none := by
  induction m with
  | nil => rfl
  | cons p ps ih =>
    have hk : (k == p.1) = false :=
      beq_eq_false_iff_ne.mpr fun he => h p (List.mem_cons_self _ _) he.symm
    simp only [List.lookup, hk]
    exact ih fun q hq => h q (List.mem_cons_of_mem _ hq)

lemma lookup_eq_none_of_not_mem {S : List (String × Int)} {k : String}
    (h : k ∉ S.map Prod.fst) : S.lookup k = none :=
  lookup_eq_none_of_forall fun p hp he =>
    h (he ▸ List.mem_map_of_mem Prod.fst hp)

lemma map_if_eq_of_not_mem {K : List String} {a : String} {x : Int}
    {h : String → Int} (ha : a ∉ K) :
    K.map (fun k => if k = a then x else h k) = K.map h :=
  List.map_congr_left fun k hk => by
    have : k ≠ a := fun he => ha (he ▸ hk)
    simp [this]

lemma sum_map_if_mem {K : List String} {a : String} {x : Int}
    {h : String → Int} (hnd : K.Nodup) (ha : a ∈ K) :
    (K.map (fun k => if k = a then x else h k)).sum
      = x + (K.map h).sum - h a := by
  induction K with
  | nil => cases ha
  | cons b K ih =>
    rcases List.nodup_cons.mp hnd with ⟨hb, hK⟩
    rcases List.mem_cons.mp ha with h1 | h1
    · subst h1
      simp only [List.map_cons, List.sum_cons, eq_self_iff_true, if_true]
      rw [map_if_eq_of_not_mem hb]
      ring
    · have hba : b ≠ a := fun he => hb (he ▸ h1)
      simp only [List.map_cons, List.sum_cons, if_neg hba]
      rw [ih hK h1]
      ring

lemma lookup_getD_sum_eq :
    ∀ (S : List (String × Int)) (K : List String),
      (S.map Prod.fst).Nodup → (∀ k ∈ S.map Prod.fst, k ∈ K) → K.Nodup →
      (K.map (fun k => (S.lookup k).getD 0)).sum = specifiedSum S := by
  intro S
  induction S with
  | nil =>
    intro K _ _ _
    have hz : ∀ x ∈ K.map
        (fun k => ((List.lookup k ([] : List (String × Int))).getD 0)), x = 0 := by
      intro x hx
      rcases List.mem_map.mp hx with ⟨k, _, hk⟩
      exact hk.symm
    simp only [specifiedSum, List.map_nil, List.sum_nil]
    exact List.sum_eq_zero hz
  | cons p S ih =>
    intro K hnd hsub hK
    rcases List.nodup_cons.mp hnd with ⟨hp, hS⟩
    have hpa : p.1 ∈ K := hsub p.1 (by simp)
    have hfun : ∀ k, ((p :: S).lookup k).getD 0
        = if k = p.1 then p.2 else (S.lookup k).getD 0 := by
      intro k
      by_cases hk : k = p.1
      · subst hk
        simp [List.lookup]
      · have hb : (k == p.1) = false := beq_eq_false_iff_ne.mpr hk
        simp [List.lookup, hb, hk]
    have hrw : K.map (fun k => ((p :: S).lookup k).getD 0)
        = K.map (fun k => if k = p.1 then p.2 else (S.lookup k).getD 0) :=
      List.map_congr_left fun k _ => hfun k
    rw [hrw, sum_map_if_mem hK hpa,
      lookup_eq_none_of_not_mem hp]
    have := ih K hS (fun k hk => hsub k (List.mem_cons_of_mem _ hk)) hK
    rw [this]
    simp [specifiedSum]

lemma filterMap_lookup_sum (S : List (String × Int)) :
    ∀ (l : List NameToReplicas),
      recordSpecSum S l
        = ((l.map (·.subsetName)).map (fun k => (S.lookup k).getD 0)).sum := by
  intro l
  induction l with
  | nil => rfl
  | cons r rs ih =>
    simp only [recordSpecSum, List.filterMap_cons, List.map_cons, List.sum_cons]
    cases h : S.lookup r.subsetName with
    | none =>
      simp only [h, Option.getD_none]
      rw [show ((0 : Int) + _ = _) from zero_add _]
      exact ih
    | some v =>
      simp only [h, Option.getD_some, List.sum_cons]
      rw [← ih]
      rfl

/-- With unique record names, unique specified keys all naming records, the
sum the Go loop accumulates equals the sum of the specified map. -/
lemma recordSpecSum_eq_specifiedSum {S : List (String × Int)}
    {l : List NameToReplicas}
    (hnames : (l.map (·.subsetName)).Nodup)
    (hkeys : (S.map Prod.fst).Nodup)
    (hsub : ∀ k ∈ S.map Prod.fst, k ∈ l.map (·.subsetName)) :
    recordSpecSum S l = specifiedSum S := by
  rw [filterMap_lookup_sum]
  exact lookup_getD_sum_eq S (l.map (·.subsetName)) hkeys hsub hnames

/- ### Structure of the fair path -/

lemma applySpec_name (S : List (String × Int)) (r : NameToReplicas) :
    (applySpec S r).subsetName = r.subsetName := by
  unfold applySpec
  cases S.lookup r.subsetName <;> rfl

lemma applySpec_of_lookup_some {S : List (String × Int)} {r : NameToReplicas}
    {v : Int} (h : S.lookup r.subsetName = some v) :
    applySpec S r = { r with replicas := v, specified := true } := by
  unfold applySpec
  rw [h]

lemma applySpec_of_lookup_none {S : List (String × Int)} {r : NameToReplicas}
    (h : S.lookup r.subsetName = none) : applySpec S r = r := by
  unfold applySpec
  rw [h]

lemma step1_unspecCount {S : List (String × Int)} :
    ∀ {l : List NameToReplicas}, (∀ r ∈ l, r.specified = false) →
      unspecCount (l.map (applySpec S)) = l.length - specifiedCount S l
      ∧ specifiedCount S l ≤ l.length := by
  intro l
  induction l with
  | nil => intro _; exact ⟨rfl, le_refl 0⟩
  | cons r rs ih =>
    intro hflags
    have hr := hflags r (List.mem_cons_self _ _)
    have ihr := ih fun s hs => hflags s (List.mem_cons_of_mem _ hs)
    cases h : S.lookup r.subsetName with
    | none =>
      have h1 : unspecCount ((r :: rs).map (applySpec S))
          = unspecCount (rs.map (applySpec S)) + 1 := by
        simp [unspecCount, applySpec_of_lookup_none h, List.filter_cons, hr]
      have h2 : specifiedCount S (r :: rs) = specifiedCount S rs := by
        simp [specifiedCount, List.filter_cons, h]
      have hle := ihr.2
      refine ⟨?_, ?_⟩
      · rw [h1, h2, ihr.1, List.length_cons]
        omega
      · rw [h2, List.length_cons]
        omega
    | some v =>
      have h1 : unspecCount ((r :: rs).map (applySpec S))
          = unspecCount (rs.map (applySpec S)) := by
        simp [unspecCount, applySpec_of_lookup_some h, List.filter_cons]
      have h2 : specifiedCount S (r :: rs) = specifiedCount S rs + 1 := by
        simp [specifiedCount, List.filter_cons, h]
      have hle := ihr.2
      refine ⟨?_, ?_⟩
      · rw [h1, h2, ihr.1, List.length_cons]
        omega
      · rw [h2, List.length_cons]
        omega

lemma step1_spec_sum {S : List (String × Int)} :
    ∀ {l : List NameToReplicas}, (∀ r ∈ l, r.specified = false) →
      sumRepl ((l.map (applySpec S)).filter (·.specified))
        = recordSpecSum S l := by
  intro l
  induction l with
  | nil => intro _; rfl
  | cons r rs ih =>
    intro hflags
    have hr := hflags r (List.mem_cons_self _ _)
    have ihr := ih fun s hs => hflags s (List.mem_cons_of_mem _ hs)
    cases h : S.lookup r.subsetName with
    | none =>
      simp only [List.map_cons, List.filter_cons, applySpec_of_lookup_none h,
        hr, Bool.false_eq_true, if_false, recordSpecSum, List.filterMap_cons, h]
      exact ihr
    | some v =>
      simp only [List.map_cons, List.filter_cons, applySpec_of_lookup_some h,
        if_true, recordSpecSum, List.filterMap_cons, h, List.sum_cons,
        sumRepl_cons]
      simp only [recordSpecSum] at ihr
      rw [ihr]

lemma unspecCount_reverse (l : List NameToReplicas) :
    unspecCount l.reverse = unspecCount l := by
  simp [unspecCount, List.filter_reverse]

lemma sumRepl_reverse (l : List NameToReplicas) :
    sumRepl l.reverse = sumRepl l := by
  simp [sumRepl, List.map_reverse, List.sum_reverse]

lemma sumRepl_filter_reverse (l : List NameToReplicas) :
    sumRepl (l.reverse.filter (·.specified)) = sumRepl (l.filter (·.specified)) := by
  simp [sumRepl, List.filter_reverse, List.map_reverse, List.sum_reverse]

lemma normalAllocate_names (T : Int) (S : List (String × Int))
    (l : List NameToReplicas) :
    (normalAllocate T S l).map (·.subsetName) = l.map (·.subsetName) := by
  simp only [normalAllocate]
  split_ifs with h
  · rw [List.map_reverse, distributeRev_map_name, List.map_reverse,
      List.reverse_reverse, List.map_map]
    exact List.map_congr_left fun r _ => applySpec_name S r
  · rw [List.map_map]
    exact List.map_congr_left fun r _ => applySpec_name S r

/-- The fair path when no subset is left unspecified: the records are
exactly the specified values. -/
lemma normalAllocate_left_zero {T : Int} {S : List (String × Int)}
    {l : List NameToReplicas} (h : specifiedCount S l = l.length) :
    normalAllocate T S l = l.map (applySpec S) := by
  simp [normalAllocate, h]

/-- The fair path with at least one unspecified subset and a non-negative
remainder pool sums exactly to the requested total. -/
lemma normalAllocate_sum_left_pos {T : Int} {S : List (String × Int)}
    {l : List NameToReplicas}
    (hflags : ∀ r ∈ l, r.specified = false)
    (hk : specifiedCount S l ≠ l.length)
    (halloc : 0 ≤ T - recordSpecSum S l) :
    sumRepl (normalAllocate T S l) = T := by
  have hstep := step1_unspecCount (S := S) hflags
  have hleft : 0 < l.length - specifiedCount S l := by omega
  simp only [normalAllocate,
    if_pos (by omega : l.length - specifiedCount S l ≠ 0)]
  set alloc := T - recordSpecSum S l with halloc_def
  set left : Nat := l.length - specifiedCount S l with hleft_def
  have hleftZ : (0 : Int) < (left : Int) := by exact_mod_cast hleft
  have htdiv : Int.tdiv alloc (left : Int) = alloc / (left : Int) :=
    Int.tdiv_eq_ediv halloc (by positivity)
  have htmod : Int.tmod alloc (left : Int) = alloc % (left : Int) :=
    Int.tmod_eq_emod halloc (by positivity)
  have hmod0 : 0 ≤ alloc % (left : Int) :=
    Int.emod_nonneg alloc (by omega)
  have hmodlt : alloc % (left : Int) < (left : Int) :=
    Int.emod_lt_of_pos alloc hleftZ
  have hunspec : unspecCount ((l.map (applySpec S)).reverse) = left := by
    rw [unspecCount_reverse, hstep.1]
  rw [sumRepl_reverse,
    distributeRev_sum _ _ _ (by rw [htmod]; exact hmod0)
      (by rw [hunspec, htmod]; exact le_of_lt hmodlt),
    hunspec, sumRepl_filter_reverse, step1_spec_sum hflags]
  have hid := Int.tdiv_add_tmod alloc (left : Int)
  linear_combination hid + halloc_def

/- ### The result map under unique names -/

lemma toSubsetReplicaMap_eq_map :
    ∀ {l : List NameToReplicas}, (l.map (·.subsetName)).Nodup →
      toSubsetReplicaMap l = l.map (fun r => (r.subsetName, r.replicas)) := by
  have main : ∀ (l : List NameToReplicas) (acc : List (String × Int)),
      (l.map (·.subsetName)).Nodup →
      (∀ p ∈ acc, p.1 ∉ l.map (·.subsetName)) →
      l.foldl (fun m r => insertAL m r.subsetName r.replicas) acc
        = acc ++ l.map (fun r => (r.subsetName, r.replicas)) := by
    intro l
    induction l with
    | nil => intro acc _ _; simp
    | cons r rs ih =>
      intro acc hnd hacc
      rw [List.map_cons] at hnd
      rcases List.nodup_cons.mp hnd with ⟨hr, hrs⟩
      have hlook : acc.lookup r.subsetName = none :=
        lookup_eq_none_of_forall fun p hp he =>
          hacc p hp (by rw [List.map_cons, he]; exact List.mem_cons_self _ _)
      have hins : insertAL acc r.subsetName r.replicas
          = acc ++ [(r.subsetName, r.replicas)] := by
        simp [insertAL, hlook]
      simp only [List.foldl_cons, hins]
      rw [ih (acc ++ [(r.subsetName, r.replicas)]) hrs ?_]
      · simp
      · intro p hp
        rcases List.mem_append.mp hp with h | h
        · intro hmem
          exact hacc p h
            (by rw [List.map_cons]; exact List.mem_cons_of_mem _ hmem)
        · have hpe : p = (r.subsetName, r.replicas) := by simpa using h
          rw [hpe]
          exact hr
  intro l hnd
  exact main l [] hnd (fun p hp => absurd hp (List.not_mem_nil p))

lemma lookup_map_pair :
    ∀ {l : List NameToReplicas}, (l.map (·.subsetName)).Nodup →
      ∀ {r : NameToReplicas}, r ∈ l →
      (l.map (fun x => (x.subsetName, x.replicas))).lookup r.subsetName
        = some r.replicas := by
  intro l
  induction l with
  | nil => intro _ r h; cases h
  | cons a rs ih =>
    intro hnd r hmem
    rw [List.map_cons] at hnd
    rcases List.nodup_cons.mp hnd with ⟨ha, hrs⟩
    rcases List.mem_cons.mp hmem with h | h
    · subst h
      simp [List.lookup]
    · have hne : (r.subsetName == a.subsetName) = false :=
        beq_eq_false_iff_ne.mpr fun he =>
          ha (he ▸ List.mem_map_of_mem (·.subsetName) h)
      simp only [List.map_cons, List.lookup, hne]
      exact ih hrs h

/-- The average local of allocator.go:168: remainder pool divided by the
number of unspecified subsets (Go integer division). -/
def fairAverage (expectedReplicas : Int) (S : List (String × Int))
    (subsets : List NameToReplicas) : Int :=
  Int.tdiv (expectedReplicas - recordSpecSum S subsets)
    ((subsets.length - specifiedCount S subsets : Nat) : Int)

/-- The remainder local of allocator.go:169 (Go integer remainder). -/
def fairRemainder (expectedReplicas : Int) (S : List (String × Int))
    (subsets : List NameToReplicas) : Int :=
  Int.tmod (expectedReplicas - recordSpecSum S subsets)
    ((subsets.length - specifiedCount S subsets : Nat) : Int)

lemma specifiedSum_le_of_effective {T : Int} {S : List (String × Int)}
    {l : List NameToReplicas}
    (heff : (effectiveReplicas T (some S) l).1 = true) :
    specifiedSum S ≤ T := by
  by_contra h
  push_neg at h
  simp [effectiveReplicas, if_pos (show specifiedSum S > T from h)] at heff

/- ### Lemmas about the incremental path -/

lemma sumRepl_append (a b : List NameToReplicas) :
    sumRepl (a ++ b) = sumRepl a + sumRepl b := by
  simp [sumRepl]

lemma sumRepl_nonneg {l : List NameToReplicas}
    (h : ∀ r ∈ l, 0 ≤ r.replicas) : 0 ≤ sumRepl l :=
  List.sum_nonneg fun x hx => by
    rcases List.mem_map.mp hx with ⟨r, hr, he⟩
    exact he ▸ h r hr

lemma distHigh_map (average : Int) :
    ∀ (l : List NameToReplicas) (remainder : Int),
      0 ≤ remainder → remainder ≤ (l.length : Int) →
      (distHigh average remainder l).map (·.replicas)
        = List.replicate remainder.toNat (average + 1) ++
          List.replicate (l.length - remainder.toNat) average := by
  intro l
  induction l with
  | nil =>
    intro remainder h0 hle
    have h : remainder = 0 := le_antisymm (by exact_mod_cast hle) h0
    subst h
    simp [distHigh]
  | cons r rs ih =>
    intro remainder h0 hle
    by_cases hr : 0 < remainder
    · have htn : remainder.toNat = (remainder - 1).toNat + 1 := by omega
      have hsub : (r :: rs).length - ((remainder - 1).toNat + 1)
          = rs.length - (remainder - 1).toNat := by
        simp only [List.length_cons]; omega
      simp only [distHigh, hr, if_true, List.map_cons]
      rw [htn, hsub]
      simp only [List.replicate_succ, List.cons_append]
      have := ih (remainder - 1) (by omega) (by simp at hle ⊢; omega)
      rw [this]
    · have h : remainder = 0 := le_antisymm (not_lt.mp hr) h0
      subst h
      simp only [distHigh, lt_self_iff_false, if_false, List.map_cons,
        Int.toNat_zero, List.replicate_zero, List.nil_append]
      have hsub : (r :: rs).length - 0 = (rs.length - 0) + 1 := by
        simp only [List.length_cons]; omega
      rw [hsub]
      simp only [List.replicate_succ]
      have := ih 0 le_rfl (by exact_mod_cast Nat.zero_le _)
      simp only [Int.toNat_zero, List.replicate_zero, List.nil_append] at this
      rw [this]

lemma distHigh_names (average : Int) :
    ∀ (l : List NameToReplicas) (remainder : Int),
      (distHigh average remainder l).map (·.subsetName)
        = l.map (·.subsetName) := by
  intro l
  induction l with
  | nil => intro _; rfl
  | cons r rs ih =>
    intro remainder
    by_cases hr : 0 < remainder <;> simp [distHigh, hr, ih]

lemma distHigh_sum (average : Int) {l : List NameToReplicas} {remainder : Int}
    (h0 : 0 ≤ remainder) (hle : remainder ≤ (l.length : Int)) :
    sumRepl (distHigh average remainder l)
      = average * (l.length : Int) + remainder := by
  have h := distHigh_map average l remainder h0 hle
  simp only [sumRepl, h, List.sum_append, List.sum_replicate]
  rw [nsmul_eq_mul, nsmul_eq_mul]
  have ht : (remainder.toNat : Int) = remainder := Int.toNat_of_nonneg h0
  have h2 : ((l.length - remainder.toNat : Nat) : Int)
      = (l.length : Int) - remainder := by omega
  rw [ht, h2]
  ring

lemma distLow_all_plus (average remainder : Int) :
    ∀ (l : List NameToReplicas) (left : Int), left ≤ remainder →
      (distLow average remainder left l).map (·.replicas)
        = List.replicate l.length (average + 1) := by
  intro l
  induction l with
  | nil => intro _ _; rfl
  | cons r rs ih =>
    intro left hle
    simp only [distLow, if_pos hle, List.map_cons, List.length_cons,
      List.replicate_succ]
    rw [ih left hle]

lemma distLow_map (average remainder : Int) :
    ∀ (l : List NameToReplicas) (left : Int),
      left = (l.length : Int) → 0 ≤ remainder → remainder ≤ left →
      (distLow average remainder left l).map (·.replicas)
        = List.replicate (l.length - remainder.toNat) average ++
          List.replicate remainder.toNat (average + 1) := by
  intro l
  induction l with
  | nil =>
    intro left hlen h0 hle
    simp only [List.length_nil, Nat.cast_zero] at hlen
    subst hlen
    have h : remainder = 0 := le_antisymm hle h0
    subst h
    rfl
  | cons r rs ih =>
    intro left hlen h0 hle
    by_cases hc : left ≤ remainder
    · have he : remainder = left := le_antisymm hle hc
      rw [distLow_all_plus average remainder (r :: rs) left hc]
      have h1 : (r :: rs).length - remainder.toNat = 0 := by
        simp only [List.length_cons] at hlen ⊢
        omega
      have h2 : remainder.toNat = (r :: rs).length := by
        simp only [List.length_cons] at hlen ⊢
        omega
      rw [h1, h2]
      simp
    · simp only [distLow, if_neg hc, List.map_cons]
      have hlt : remainder < left := lt_of_not_le hc
      have := ih (left - 1)
        (by simp only [List.length_cons] at hlen; omega) h0 (by omega)
      rw [this]
      have h1 : (r :: rs).length - remainder.toNat
          = (rs.length - remainder.toNat) + 1 := by
        simp only [List.length_cons] at hlen ⊢; omega
      rw [h1]
      simp only [List.replicate_succ, List.cons_append]

lemma distLow_names (average remainder : Int) :
    ∀ (l : List NameToReplicas) (left : Int),
      (distLow average remainder left l).map (·.subsetName)
        = l.map (·.subsetName) := by
  intro l
  induction l with
  | nil => intro _; rfl
  | cons r rs ih =>
    intro left
    by_cases hc : left ≤ remainder <;> simp [distLow, hc, ih]

lemma distLow_sum (average : Int) {l : List NameToReplicas}
    {remainder left : Int} (hlen : left = (l.length : Int))
    (h0 : 0 ≤ remainder) (hle : remainder ≤ left) :
    sumRepl (distLow average remainder left l)
      = average * (l.length : Int) + remainder := by
  have h := distLow_map average remainder l left hlen h0 hle
  simp only [sumRepl, h, List.sum_append, List.sum_replicate]
  rw [nsmul_eq_mul, nsmul_eq_mul]
  have ht : (remainder.toNat : Int) = remainder := Int.toNat_of_nonneg h0
  have h2 : ((l.length - remainder.toNat : Nat) : Int)
      = (l.length : Int) - remainder := by omega
  rw [ht, h2]
  ring

lemma peelHigh_cons (e : Int) (r : NameToReplicas) (rs : List NameToReplicas) :
    peelHigh e (r :: rs)
      = if (if 0 < Int.tmod e ((rs.length : Int) + 1) then
            Int.tdiv e ((rs.length : Int) + 1) + 1
          else Int.tdiv e ((rs.length : Int) + 1)) < r.replicas then
          ((peelHigh (e - r.replicas) rs).1,
            r :: (peelHigh (e - r.replicas) rs).2.1,
            (peelHigh (e - r.replicas) rs).2.2)
        else (e, [], r :: rs) := rfl

lemma peelLow_cons (e : Int) (r : NameToReplicas) (rs : List NameToReplicas) :
    peelLow e (r :: rs)
      = if Int.tdiv e ((rs.length : Int) + 1) > r.replicas then
          ((peelLow (e - r.replicas) rs).1,
            r :: (peelLow (e - r.replicas) rs).2.1,
            (peelLow (e - r.replicas) rs).2.2)
        else (e, [], r :: rs) := rfl

lemma peelHigh_append :
    ∀ (l : List NameToReplicas) (e : Int),
      (peelHigh e l).2.1 ++ (peelHigh e l).2.2 = l
      ∧ (peelHigh e l).1 = e - sumRepl (peelHigh e l).2.1 := by
  intro l
  induction l with
  | nil => intro e; exact ⟨rfl, by simp [peelHigh, sumRepl]⟩
  | cons r rs ih =>
    intro e
    by_cases hc : (if 0 < Int.tmod e ((rs.length : Int) + 1) then
        Int.tdiv e ((rs.length : Int) + 1) + 1
      else Int.tdiv e ((rs.length : Int) + 1)) < r.replicas
    · rw [peelHigh_cons, if_pos hc]
      have h := ih (e - r.replicas)
      refine ⟨?_, ?_⟩
      · show r :: (peelHigh (e - r.replicas) rs).2.1 ++
            (peelHigh (e - r.replicas) rs).2.2 = r :: rs
        rw [List.cons_append, h.1]
      · show (peelHigh (e - r.replicas) rs).1
            = e - sumRepl (r :: (peelHigh (e - r.replicas) rs).2.1)
        rw [h.2, sumRepl_cons]
        ring
    · rw [peelHigh_cons, if_neg hc]
      exact ⟨rfl, by simp [sumRepl]⟩

lemma peelHigh_kept :
    ∀ (l : List NameToReplicas) (e : Int), l ≠ [] → sumRepl l < e →
      (peelHigh e l).2.2 ≠ []
      ∧ sumRepl (peelHigh e l).2.2 < (peelHigh e l).1 := by
  intro l
  induction l with
  | nil => intro e h; exact absurd rfl h
  | cons r rs ih =>
    intro e _ hsum
    rw [sumRepl_cons] at hsum
    by_cases hc : (if 0 < Int.tmod e ((rs.length : Int) + 1) then
        Int.tdiv e ((rs.length : Int) + 1) + 1
      else Int.tdiv e ((rs.length : Int) + 1)) < r.replicas
    · rw [peelHigh_cons, if_pos hc]
      by_cases hrs : rs = []
      · exfalso
        subst hrs
        simp only [List.length_nil, Nat.cast_zero, zero_add, Int.tmod_one,
          lt_self_iff_false, if_false, Int.tdiv_one] at hc
        simp only [sumRepl, List.map_nil, List.sum_nil] at hsum
        omega
      · have hlt : sumRepl rs < e - r.replicas := by omega
        exact ih (e - r.replicas) hrs hlt
    · rw [peelHigh_cons, if_neg hc]
      refine ⟨by simp, ?_⟩
      show sumRepl (r :: rs) < e
      rw [sumRepl_cons]
      omega

lemma peelLow_append :
    ∀ (l : List NameToReplicas) (e : Int),
      (peelLow e l).2.1 ++ (peelLow e l).2.2 = l
      ∧ (peelLow e l).1 = e - sumRepl (peelLow e l).2.1 := by
  intro l
  induction l with
  | nil => intro e; exact ⟨rfl, by simp [peelLow, sumRepl]⟩
  | cons r rs ih =>
    intro e
    by_cases hc : Int.tdiv e ((rs.length : Int) + 1) > r.replicas
    · rw [peelLow_cons, if_pos hc]
      have h := ih (e - r.replicas)
      refine ⟨?_, ?_⟩
      · show r :: (peelLow (e - r.replicas) rs).2.1 ++
            (peelLow (e - r.replicas) rs).2.2 = r :: rs
        rw [List.cons_append, h.1]
      · show (peelLow (e - r.replicas) rs).1
            = e - sumRepl (r :: (peelLow (e - r.replicas) rs).2.1)
        rw [h.2, sumRepl_cons]
        ring
    · rw [peelLow_cons, if_neg hc]
      exact ⟨rfl, by simp [sumRepl]⟩

lemma peelLow_kept :
    ∀ (l : List NameToReplicas) (e : Int), l ≠ [] → e < sumRepl l →
      (peelLow e l).2.2 ≠ [] := by
  intro l
  induction l with
  | nil => intro e h; exact absurd rfl h
  | cons r rs ih =>
    intro e _ hsum
    rw [sumRepl_cons] at hsum
    by_cases hc : Int.tdiv e ((rs.length : Int) + 1) > r.replicas
    · rw [peelLow_cons, if_pos hc]
      by_cases hrs : rs = []
      · exfalso
        subst hrs
        simp only [List.length_nil, Nat.cast_zero, zero_add,
          Int.tdiv_one] at hc
        simp only [sumRepl, List.map_nil, List.sum_nil] at hsum
        omega
      · exact ih (e - r.replicas) hrs (by omega)
    · rw [peelLow_cons, if_neg hc]
      simp

lemma tdiv_le_self_of_nonneg {e c : Int} (he : 0 ≤ e) (hc : 0 < c) :
    Int.tdiv e c ≤ e := by
  rw [Int.tdiv_eq_ediv he (le_of_lt hc)]
  exact Int.ediv_le_self c he

lemma peelLow_nonneg :
    ∀ (l : List NameToReplicas) (e : Int), 0 ≤ e → 0 ≤ (peelLow e l).1 := by
  intro l
  induction l with
  | nil => intro e he; exact he
  | cons r rs ih =>
    intro e he
    by_cases hc : Int.tdiv e ((rs.length : Int) + 1) > r.replicas
    · rw [peelLow_cons, if_pos hc]
      have hcnt : (0 : Int) < (rs.length : Int) + 1 := by positivity
      have hdle : Int.tdiv e ((rs.length : Int) + 1) ≤ e :=
        tdiv_le_self_of_nonneg he hcnt
      exact ih (e - r.replicas) (by omega)
    · rw [peelLow_cons, if_neg hc]
      exact he

/- ### Feasibility helper and the two allocation branches -/

lemma effective_parts {T : Int} {S : List (String × Int)}
    {l : List NameToReplicas}
    (heff : (effectiveReplicas T (some S) l).1 = true) :
    specifiedSum S ≤ T
    ∧ (specifiedCount S l = l.length → specifiedSum S = T) := by
  simp only [effectiveReplicas] at heff
  split_ifs at heff with h1 h2
  constructor
  · omega
  · intro hc
    by_contra hne
    apply h2
    simp only [hc, beq_self_eq_true, Bool.and_true, decide_eq_true_eq]
    omega

lemma all_specified_of_count {S : List (String × Int)} :
    ∀ {l : List NameToReplicas}, specifiedCount S l = l.length →
      ∀ r ∈ l, (S.lookup r.subsetName).isSome := by
  intro l
  induction l with
  | nil => intro _ r h; cases h
  | cons a rs ih =>
    intro h r hr
    have hle : specifiedCount S rs ≤ rs.length := List.length_filter_le _ _
    by_cases ha : (S.lookup a.subsetName).isSome
    · have h2 : specifiedCount S (a :: rs) = specifiedCount S rs + 1 := by
        simp [specifiedCount, List.filter_cons, ha]
      rcases List.mem_cons.mp hr with h3 | h3
      · subst h3; exact ha
      · refine ih ?_ r h3
        rw [h2, List.length_cons] at h
        omega
    · exfalso
      have h2 : specifiedCount S (a :: rs) = specifiedCount S rs := by
        simp [specifiedCount, List.filter_cons, ha]
      rw [h2, List.length_cons] at h
      omega

lemma step1_sum_all_specified {S : List (String × Int)} :
    ∀ {l : List NameToReplicas},
      (∀ r ∈ l, (S.lookup r.subsetName).isSome) →
      sumRepl (l.map (applySpec S)) = recordSpecSum S l := by
  intro l
  induction l with
  | nil => intro _; rfl
  | cons a rs ih =>
    intro h
    rcases Option.isSome_iff_exists.mp (h a (List.mem_cons_self _ _)) with ⟨v, hv⟩
    simp only [List.map_cons, sumRepl_cons, applySpec_of_lookup_some hv,
      recordSpecSum, List.filterMap_cons, hv, List.sum_cons]
    have := ih fun r hr => h r (List.mem_cons_of_mem _ hr)
    simp only [recordSpecSum] at this
    rw [this]

lemma lookup_mem {S : List (String × Int)} {k : String} {v : Int}
    (h : S.lookup k = some v) : (k, v) ∈ S := by
  induction S with
  | nil => cases h
  | cons p ps ih =>
    by_cases hk : (k == p.1) = true
    · have hkey : k = p.1 := beq_iff_eq.mp hk
      simp only [List.lookup, hk] at h
      have : p = (k, v) := by
        rcases p with ⟨p1, p2⟩
        simp only at hkey h
        simp [← hkey, Option.some_inj.mp h]
      rw [← this]
      exact List.mem_cons_self _ _
    · have hkf : (k == p.1) = false := by simpa using hk
      simp only [List.lookup, hkf] at h
      exact List.mem_cons_of_mem _ (ih h)

lemma incHigh_nil (T : Int) : incHigh T [] = [] := rfl

lemma incLow_nil (T : Int) : incLow T [] = [] := rfl

lemma incHigh_names (T : Int) (l : List NameToReplicas) :
    (incHigh T l).map (·.subsetName) = l.map (·.subsetName) := by
  have hap := peelHigh_append l.reverse T
  simp only [incHigh]
  rw [List.map_reverse, List.map_append, distHigh_names, ← List.map_append,
    hap.1, List.map_reverse, List.reverse_reverse]

lemma incLow_names (T : Int) (l : List NameToReplicas) :
    (incLow T l).map (·.subsetName) = l.map (·.subsetName) := by
  have hap := peelLow_append l T
  simp only [incLow]
  rw [List.map_append, distLow_names, ← List.map_append, hap.1]

lemma incrementalAllocate_names (T : Int) (l : List NameToReplicas) :
    (incrementalAllocate T l).map (·.subsetName) = l.map (·.subsetName) := by
  simp only [incrementalAllocate]
  split_ifs with h1 h2
  · exact incHigh_names T l
  · exact incLow_names T l
  · rfl

lemma incHigh_sum {T : Int} {l : List NameToReplicas} (hne : l ≠ [])
    (hrep : ∀ r ∈ l, 0 ≤ r.replicas) (hgt : sumRepl l < T) :
    sumRepl (incHigh T l) = T := by
  have hrevne : l.reverse ≠ [] := by simpa using hne
  have hk := peelHigh_kept l.reverse T hrevne
    (by rw [sumRepl_reverse]; exact hgt)
  have hap := peelHigh_append l.reverse T
  have hkept_sub : ∀ r ∈ (peelHigh T l.reverse).2.2, r ∈ l := by
    intro r hr
    have : r ∈ l.reverse := by
      rw [← hap.1]; exact List.mem_append_right _ hr
    exact List.mem_reverse.mp this
  have he : 0 ≤ (peelHigh T l.reverse).1 :=
    le_trans (sumRepl_nonneg fun r hr => hrep r (hkept_sub r hr))
      (le_of_lt hk.2)
  have hcnt : 0 < (peelHigh T l.reverse).2.2.length :=
    List.length_pos.mpr hk.1
  have hcntZ : (0 : Int) < ((peelHigh T l.reverse).2.2.length : Int) := by
    exact_mod_cast hcnt
  have htmod : Int.tmod (peelHigh T l.reverse).1
      ((peelHigh T l.reverse).2.2.length : Int)
      = (peelHigh T l.reverse).1 % ((peelHigh T l.reverse).2.2.length : Int) :=
    Int.tmod_eq_emod he (le_of_lt hcntZ)
  have hm0 : 0 ≤ Int.tmod (peelHigh T l.reverse).1
      ((peelHigh T l.reverse).2.2.length : Int) := by
    rw [htmod]; exact Int.emod_nonneg _ (by omega)
  have hmlt : Int.tmod (peelHigh T l.reverse).1
      ((peelHigh T l.reverse).2.2.length : Int)
      ≤ ((peelHigh T l.reverse).2.2.length : Int) := by
    rw [htmod]; exact le_of_lt (Int.emod_lt_of_pos _ hcntZ)
  simp only [incHigh]
  rw [sumRepl_reverse, sumRepl_append, distHigh_sum _ hm0 hmlt]
  have hid := Int.tdiv_add_tmod (peelHigh T l.reverse).1
    ((peelHigh T l.reverse).2.2.length : Int)
  linear_combination hid + hap.2

lemma incLow_sum {T : Int} {l : List NameToReplicas} (hT : 0 ≤ T)
    (hlt : T < sumRepl l) : sumRepl (incLow T l) = T := by
  have hne : l ≠ [] := by
    rintro rfl
    simp [sumRepl] at hlt
    omega
  have hk := peelLow_kept l T hne hlt
  have hap := peelLow_append l T
  have he : 0 ≤ (peelLow T l).1 := peelLow_nonneg l T hT
  have hcnt : 0 < (peelLow T l).2.2.length := List.length_pos.mpr hk
  have hcntZ : (0 : Int) < ((peelLow T l).2.2.length : Int) := by
    exact_mod_cast hcnt
  have htmod : Int.tmod (peelLow T l).1 ((peelLow T l).2.2.length : Int)
      = (peelLow T l).1 % ((peelLow T l).2.2.length : Int) :=
    Int.tmod_eq_emod he (le_of_lt hcntZ)
  have hm0 : 0 ≤ Int.tmod (peelLow T l).1
      ((peelLow T l).2.2.length : Int) := by
    rw [htmod]; exact Int.emod_nonneg _ (by omega)
  have hmlt : Int.tmod (peelLow T l).1 ((peelLow T l).2.2.length : Int)
      ≤ ((peelLow T l).2.2.length : Int) := by
    rw [htmod]; exact le_of_lt (Int.emod_lt_of_pos _ hcntZ)
  simp only [incLow]
  rw [sumRepl_append, distLow_sum _ rfl hm0 hmlt]
  have hid := Int.tdiv_add_tmod (peelLow T l).1
    ((peelLow T l).2.2.length : Int)
  linear_combination hid + hap.2

lemma incrementalAllocate_sum {T : Int} {l : List NameToReplicas}
    (hT : 0 ≤ T) (hrep : ∀ r ∈ l, 0 ≤ r.replicas) (hne : l ≠ []) :
    sumRepl (incrementalAllocate T l) = T := by
  simp only [incrementalAllocate]
  split_ifs with h1 h2
  · exact incHigh_sum hne hrep (by omega)
  · exact incLow_sum hT (by omega)
  · omega

lemma mem_distHigh_replicas {average remainder : Int}
    {l : List NameToReplicas} (h0 : 0 ≤ remainder)
    (hle : remainder ≤ (l.length : Int)) :
    ∀ r ∈ distHigh average remainder l,
      r.replicas = average ∨ r.replicas = average + 1 := by
  intro r hr
  have hmem : r.replicas ∈ (distHigh average remainder l).map (·.replicas) :=
    List.mem_map_of_mem _ hr
  rw [distHigh_map average l remainder h0 hle] at hmem
  rcases List.mem_append.mp hmem with h | h
  · right; exact List.eq_of_mem_replicate h
  · left; exact List.eq_of_mem_replicate h

lemma mem_distLow_replicas {average remainder left : Int}
    {l : List NameToReplicas} (hlen : left = (l.length : Int))
    (h0 : 0 ≤ remainder) (hle : remainder ≤ left) :
    ∀ r ∈ distLow average remainder left l,
      r.replicas = average ∨ r.replicas = average + 1 := by
  intro r hr
  have hmem : r.replicas ∈ (distLow average remainder left l).map (·.replicas) :=
    List.mem_map_of_mem _ hr
  rw [distLow_map average remainder l left hlen h0 hle] at hmem
  rcases List.mem_append.mp hmem with h | h
  · left; exact List.eq_of_mem_replicate h
  · right; exact List.eq_of_mem_replicate h

lemma incrementalAllocate_nonneg {T : Int} {l : List NameToReplicas}
    (hT : 0 ≤ T) (hrep : ∀ r ∈ l, 0 ≤ r.replicas) :
    ∀ r ∈ incrementalAllocate T l, 0 ≤ r.replicas := by
  by_cases hne : l = []
  · subst hne
    simp only [incrementalAllocate]
    split_ifs with h1 h2 <;>
      first
      | (rw [incHigh_nil]; intro r hr; cases hr)
      | (rw [incLow_nil]; intro r hr; cases hr)
      | (intro r hr; cases hr)
  · simp only [incrementalAllocate]
    split_ifs with h1 h2
    · -- scale out
      have hrevne : l.reverse ≠ [] := by simpa using hne
      have hk := peelHigh_kept l.reverse T hrevne
        (by rw [sumRepl_reverse]; omega)
      have hap := peelHigh_append l.reverse T
      have hkept_sub : ∀ r ∈ (peelHigh T l.reverse).2.2, r ∈ l := by
        intro r hr
        have : r ∈ l.reverse := by
          rw [← hap.1]; exact List.mem_append_right _ hr
        exact List.mem_reverse.mp this
      have he : 0 ≤ (peelHigh T l.reverse).1 :=
        le_trans (sumRepl_nonneg fun r hr => hrep r (hkept_sub r hr))
          (le_of_lt hk.2)
      have hcntZ : (0 : Int) < ((peelHigh T l.reverse).2.2.length : Int) := by
        exact_mod_cast List.length_pos.mpr hk.1
      have htmod : Int.tmod (peelHigh T l.reverse).1
          ((peelHigh T l.reverse).2.2.length : Int)
          = (peelHigh T l.reverse).1 %
            ((peelHigh T l.reverse).2.2.length : Int) :=
        Int.tmod_eq_emod he (le_of_lt hcntZ)
      have hm0 : 0 ≤ Int.tmod (peelHigh T l.reverse).1
          ((peelHigh T l.reverse).2.2.length : Int) := by
        rw [htmod]; exact Int.emod_nonneg _ (by omega)
      have hmlt : Int.tmod (peelHigh T l.reverse).1
          ((peelHigh T l.reverse).2.2.length : Int)
          ≤ ((peelHigh T l.reverse).2.2.length : Int) := by
        rw [htmod]; exact le_of_lt (Int.emod_lt_of_pos _ hcntZ)
      have havg : 0 ≤ Int.tdiv (peelHigh T l.reverse).1
          ((peelHigh T l.reverse).2.2.length : Int) :=
        Int.tdiv_nonneg he (le_of_lt hcntZ)
      intro r hr
      simp only [incHigh, List.mem_reverse] at hr
      rcases List.mem_append.mp hr with h | h
      · refine hrep r ?_
        have : r ∈ l.reverse := by
          rw [← hap.1]; exact List.mem_append_left _ h
        exact List.mem_reverse.mp this
      · rcases mem_distHigh_replicas hm0 hmlt r h with hv | hv <;> omega
    · -- scale in
      have hk := peelLow_kept l T hne (by omega)
      have hap := peelLow_append l T
      have he : 0 ≤ (peelLow T l).1 := peelLow_nonneg l T hT
      have hcntZ : (0 : Int) < ((peelLow T l).2.2.length : Int) := by
        exact_mod_cast List.length_pos.mpr hk
      have htmod : Int.tmod (peelLow T l).1 ((peelLow T l).2.2.length : Int)
          = (peelLow T l).1 % ((peelLow T l).2.2.length : Int) :=
        Int.tmod_eq_emod he (le_of_lt hcntZ)
      have hm0 : 0 ≤ Int.tmod (peelLow T l).1
          ((peelLow T l).2.2.length : Int) := by
        rw [htmod]; exact Int.emod_nonneg _ (by omega)
      have hmlt : Int.tmod (peelLow T l).1 ((peelLow T l).2.2.length : Int)
          ≤ ((peelLow T l).2.2.length : Int) := by
        rw [htmod]; exact le_of_lt (Int.emod_lt_of_pos _ hcntZ)
      have havg : 0 ≤ Int.tdiv (peelLow T l).1
          ((peelLow T l).2.2.length : Int) :=
        Int.tdiv_nonneg he (le_of_lt hcntZ)
      intro r hr
      simp only [incLow] at hr
      rcases List.mem_append.mp hr with h | h
      · refine hrep r ?_
        rw [← hap.1]
        exact List.mem_append_left _ h
      · rcases mem_distLow_replicas rfl hm0 hmlt r h with hv | hv <;> omega
    · exact hrep

lemma normalAllocate_nonneg {T : Int} {S : List (String × Int)}
    {l : List NameToReplicas}
    (hv : ∀ pr ∈ S, 0 ≤ pr.2)
    (hrep : ∀ r ∈ l, 0 ≤ r.replicas)
    (halloc : 0 ≤ T - recordSpecSum S l) :
    ∀ r ∈ normalAllocate T S l, 0 ≤ r.replicas := by
  have happ : ∀ r ∈ l.map (applySpec S), 0 ≤ r.replicas := by
    intro r hr
    rcases List.mem_map.mp hr with ⟨r0, hr0, hr0e⟩
    subst hr0e
    cases h : S.lookup r0.subsetName with
    | none => rw [applySpec_of_lookup_none h]; exact hrep r0 hr0
    | some v =>
      rw [applySpec_of_lookup_some h]
      exact hv (r0.subsetName, v) (lookup_mem h)
  simp only [normalAllocate]
  split_ifs with h
  · have hleftZ : (0 : Int) < ((l.length - specifiedCount S l : Nat) : Int) := by
      have : 0 < l.length - specifiedCount S l := Nat.pos_of_ne_zero h
      exact_mod_cast this
    have havg : 0 ≤ Int.tdiv (T - recordSpecSum S l)
        ((l.length - specifiedCount S l : Nat) : Int) :=
      Int.tdiv_nonneg halloc (le_of_lt hleftZ)
    intro r hr
    rw [List.mem_reverse] at hr
    rcases mem_distributeRev _ _ _ _ hr with
      ⟨_, hmem⟩ | ⟨_, _, _, _, _, hval⟩
    · exact happ r (List.mem_reverse.mp hmem)
    · rcases hval with hv1 | hv1 <;> omega
  · exact happ

lemma allocatedRecords_names (T : Int) (limits : Option (List (String × Int)))
    (l : List NameToReplicas) :
    (allocatedRecords T limits l).map (·.subsetName) = l.map (·.subsetName) := by
  simp only [allocatedRecords]
  split_ifs with h
  · exact normalAllocate_names T (limits.getD []) l
  · exact incrementalAllocate_names T l

/- ### Exclusion-loop characterization (scale in) -/

lemma peelLow_stop :
    ∀ (l : List NameToReplicas) (e : Int) {r : NameToReplicas}
      {ks : List NameToReplicas},
      (peelLow e l).2.2 = r :: ks →
      Int.tdiv (peelLow e l).1 ((ks.length : Int) + 1) ≤ r.replicas := by
  intro l
  induction l with
  | nil => intro e r ks h; cases h
  | cons a rs ih =>
    intro e r ks h
    by_cases hc : Int.tdiv e ((rs.length : Int) + 1) > a.replicas
    · rw [peelLow_cons, if_pos hc] at h ⊢
      exact ih (e - a.replicas) h
    · rw [peelLow_cons, if_neg hc] at h
      have h2 : a :: rs = r :: ks := h
      injection h2 with har hrs
      rw [peelLow_cons, if_neg hc]
      show Int.tdiv e ((ks.length : Int) + 1) ≤ r.replicas
      rw [← har, ← hrs]
      omega

lemma peelLow_drop_cond :
    ∀ (l : List NameToReplicas) (e : Int) (j : Nat)
      (rj : NameToReplicas),
      j < (peelLow e l).2.1.length → l[j]? = some rj →
      Int.tdiv (e - sumRepl (l.take j)) ((l.length : Int) - (j : Int))
        > rj.replicas := by
  intro l
  induction l with
  | nil =>
    intro e j rj hj _
    simp [peelLow] at hj
  | cons a rs ih =>
    intro e j rj hj hel
    by_cases hc : Int.tdiv e ((rs.length : Int) + 1) > a.replicas
    · rw [peelLow_cons, if_pos hc] at hj
      cases j with
      | zero =>
        have hra : rj = a := by
          rw [List.getElem?_cons_zero] at hel
          exact (Option.some_inj.mp hel).symm
        have h1 : e - sumRepl ((a :: rs).take 0) = e := by
          simp [sumRepl]
        have h2 : ((a :: rs).length : Int) - ((0 : Nat) : Int)
            = (rs.length : Int) + 1 := by
          simp
        rw [h1, h2, hra]
        exact hc
      | succ j' =>
        rw [List.getElem?_cons_succ] at hel
        have hj' : j' < (peelLow (e - a.replicas) rs).2.1.length := by
          have : j' + 1 < (a :: (peelLow (e - a.replicas) rs).2.1).length := hj
          rw [List.length_cons] at this
          omega
        have hih := ih (e - a.replicas) j' rj hj' hel
        have h1 : e - sumRepl ((a :: rs).take (j' + 1))
            = (e - a.replicas) - sumRepl (rs.take j') := by
          rw [List.take_succ_cons, sumRepl_cons]
          ring
        have h2 : ((a :: rs).length : Int) - ((j' + 1 : Nat) : Int)
            = (rs.length : Int) - (j' : Int) := by
          rw [List.length_cons]
          push_cast
          ring
        rw [h1, h2]
        exact hih
    · rw [peelLow_cons, if_neg hc] at hj
      simp at hj

/- ### C10: exclusion-loop bounds -/

/-- C10: for a non-empty record list, the scale-out exclusion loop never
excludes the record at index 0 (the considered range stays non-empty and
still ends at the original head), and the scale-in exclusion loop never
excludes the record at the last index; hence every index the distribution
loops touch is in bounds. -/
theorem incremental_bounds (T : Int) (l : List NameToReplicas)
    (hne : l ≠ []) :
    (sumRepl l < T →
      (peelHigh T l.reverse).2.2 ≠ []
      ∧ (peelHigh T l.reverse).2.2.getLast? = l.head?)
    ∧ (T < sumRepl l →
      (peelLow T l).2.2 ≠ []
      ∧ (peelLow T l).2.2.getLast? = l.getLast?) := by
  constructor
  · intro hgt
    have hrevne : l.reverse ≠ [] := by simpa using hne
    have hk := peelHigh_kept l.reverse T hrevne
      (by rw [sumRepl_reverse]; exact hgt)
    refine ⟨hk.1, ?_⟩
    have hap := (peelHigh_append l.reverse T).1
    rcases Option.isSome_iff_exists.mp
      (List.getLast?_isSome.mpr hk.1) with ⟨x, hx⟩
    have : ((peelHigh T l.reverse).2.1 ++
        (peelHigh T l.reverse).2.2).getLast? = l.reverse.getLast? := by
      rw [hap]
    rw [List.getLast?_append, hx, List.getLast?_reverse] at this
    rw [hx, ← this]
    rfl
  · intro hlt
    have hk := peelLow_kept l T hne hlt
    refine ⟨hk, ?_⟩
    have hap := (peelLow_append l T).1
    rcases Option.isSome_iff_exists.mp
      (List.getLast?_isSome.mpr hk) with ⟨x, hx⟩
    have : ((peelLow T l).2.1 ++ (peelLow T l).2.2).getLast?
        = l.getLast? := by rw [hap]
    rw [List.getLast?_append, hx] at this
    rw [hx, ← this]
    rfl

/-- Witness for C10. -/
theorem incremental_bounds_witness :
    (peelLow 9 [⟨"a", 1, false⟩, ⟨"b", 5, false⟩, ⟨"c", 5, false⟩]).2.2 ≠ [] :=
  ((incremental_bounds 9 [⟨"a", 1, false⟩, ⟨"b", 5, false⟩, ⟨"c", 5, false⟩]
    (by decide)).2 (by decide)).1

/- ### C5: the scale-in branch -/

/-- C5: when scaling in, the records of the excluded prefix are exactly
those whose current count is strictly below the truncated average of the
remaining pool, each keeps its current value, exclusion stops at the first
record whose current count reaches that average, and over the considered
range the +1 units land on the records with the largest indices. -/
theorem incrementalAllocate_scale_in (T : Int) (l : List NameToReplicas)
    (hT : 0 ≤ T) (hlt : T < sumRepl l) :
    (incrementalAllocate T l).take (peelLow T l).2.1.length
        = l.take (peelLow T l).2.1.length
    ∧ (∀ (j : Nat) (rj : NameToReplicas),
        j < (peelLow T l).2.1.length → l[j]? = some rj →
        Int.tdiv (T - sumRepl (l.take j)) ((l.length : Int) - (j : Int))
          > rj.replicas)
    ∧ (∀ rd : NameToReplicas,
        l[(peelLow T l).2.1.length]? = some rd →
        Int.tdiv (peelLow T l).1
          ((l.length : Int) - ((peelLow T l).2.1.length : Int))
          ≤ rd.replicas)
    ∧ ((incrementalAllocate T l).drop (peelLow T l).2.1.length).map
          (·.replicas)
        = List.replicate ((peelLow T l).2.2.length -
            (Int.tmod (peelLow T l).1
              ((peelLow T l).2.2.length : Int)).toNat)
            (Int.tdiv (peelLow T l).1 ((peelLow T l).2.2.length : Int)) ++
          List.replicate (Int.tmod (peelLow T l).1
              ((peelLow T l).2.2.length : Int)).toNat
            (Int.tdiv (peelLow T l).1 ((peelLow T l).2.2.length : Int) + 1) := by
  have hne : l ≠ [] := by
    rintro rfl
    simp [sumRepl] at hlt
    omega
  have hinc : incrementalAllocate T l = incLow T l := by
    simp only [incrementalAllocate]
    rw [if_neg (by omega), if_pos (by omega)]
  have hap := peelLow_append l T
  have hk := peelLow_kept l T hne hlt
  have he : 0 ≤ (peelLow T l).1 := peelLow_nonneg l T hT
  have hcntZ : (0 : Int) < ((peelLow T l).2.2.length : Int) := by
    exact_mod_cast List.length_pos.mpr hk
  have htmod : Int.tmod (peelLow T l).1 ((peelLow T l).2.2.length : Int)
      = (peelLow T l).1 % ((peelLow T l).2.2.length : Int) :=
    Int.tmod_eq_emod he (le_of_lt hcntZ)
  have hm0 : 0 ≤ Int.tmod (peelLow T l).1
      ((peelLow T l).2.2.length : Int) := by
    rw [htmod]; exact Int.emod_nonneg _ (by omega)
  have hmlt : Int.tmod (peelLow T l).1 ((peelLow T l).2.2.length : Int)
      ≤ ((peelLow T l).2.2.length : Int) := by
    rw [htmod]; exact le_of_lt (Int.emod_lt_of_pos _ hcntZ)
  refine ⟨?_, ?_, ?_, ?_⟩
  · rw [hinc]
    simp only [incLow]
    rw [List.take_left]
    have : l.take (peelLow T l).2.1.length
        = ((peelLow T l).2.1 ++ (peelLow T l).2.2).take
            (peelLow T l).2.1.length := by rw [hap.1]
    rw [this, List.take_left]
  · exact fun j rj hj hel => peelLow_drop_cond l T j rj hj hel
  · intro rd hel
    rcases List.exists_cons_of_ne_nil hk with ⟨r, ks, hks⟩
    have hgen : ∀ (A B : List NameToReplicas), A ++ B = l → B = r :: ks →
        l[A.length]? = some r := by
      intro A B hab hb
      rw [← hab, List.getElem?_append_right (le_refl A.length),
        Nat.sub_self, hb, List.getElem?_cons_zero]
    have hel2 : l[(peelLow T l).2.1.length]? = some r :=
      hgen _ _ hap.1 hks
    have hrd : rd = r := by
      rw [hel] at hel2
      exact Option.some_inj.mp hel2
    subst hrd
    have hlen : (l.length : Int) - ((peelLow T l).2.1.length : Int)
        = ((ks.length : Int) + 1) := by
      have h0 : ((peelLow T l).2.1 ++ (peelLow T l).2.2).length = l.length := by
        rw [hap.1]
      rw [List.length_append, hks, List.length_cons] at h0
      omega
    rw [hlen]
    exact peelLow_stop l T hks
  · rw [hinc]
    simp only [incLow]
    rw [List.drop_left]
    exact distLow_map _ _ _ _ rfl hm0 hmlt

/-- Witness for C5. -/
theorem incrementalAllocate_scale_in_witness :
    (incrementalAllocate 9 [⟨"a", 1, false⟩, ⟨"b", 5, false⟩,
        ⟨"c", 5, false⟩]).take
      (peelLow 9 [⟨"a", 1, false⟩, ⟨"b", 5, false⟩, ⟨"c", 5, false⟩]).2.1.length
    = [⟨"a", 1, false⟩, ⟨"b", 5, false⟩, ⟨"c", 5, false⟩].take
      (peelLow 9 [⟨"a", 1, false⟩, ⟨"b", 5, false⟩,
        ⟨"c", 5, false⟩]).2.1.length :=
  (incrementalAllocate_scale_in 9
    [⟨"a", 1, false⟩, ⟨"b", 5, false⟩, ⟨"c", 5, false⟩]
    (by decide) (by decide)).1

/- ### C1 (amended) and its counterexample -/

/-- C1 does not hold for every input: with an empty topology and a positive
total, the incremental path returns an empty mapping whose values sum to 0,
not to the requested total 1. -/
theorem AllocateReplicas_sum_counterexample :
    ¬ (((AllocateReplicas 1 (some []) ([] : List NameToReplicas)).1.map
        Prod.snd).sum = 1) := by decide

/-- C1 (amended): for a non-empty record list satisfying the documented
preconditions (unique subset names, non-negative current replicas and
total, specified keys unique and drawn from the subset names, pinned flags
initially clear), the values of the returned mapping sum exactly to the
requested total on both the fair and the incremental path. -/
theorem AllocateReplicas_sum_total (T : Int) (S : List (String × Int))
    (l : List NameToReplicas)
    (hT : 0 ≤ T) (hne : l ≠ [])
    (hflags : ∀ r ∈ l, r.specified = false)
    (hnames : (l.map (·.subsetName)).Nodup)
    (hkeys : (S.map Prod.fst).Nodup)
    (hsub : ∀ k ∈ S.map Prod.fst, k ∈ l.map (·.subsetName))
    (hrep : ∀ r ∈ l, 0 ≤ r.replicas) :
    ((AllocateReplicas T (some S) l).1.map Prod.snd).sum = T := by
  have hnodup2 : ((allocatedRecords T (some S) l).map (·.subsetName)).Nodup := by
    rw [allocatedRecords_names]; exact hnames
  have hmapeq : (AllocateReplicas T (some S) l).1
      = (allocatedRecords T (some S) l).map
          (fun r => (r.subsetName, r.replicas)) := by
    simp only [AllocateReplicas]
    exact toSubsetReplicaMap_eq_map hnodup2
  rw [hmapeq, List.map_map]
  have hsum : ((allocatedRecords T (some S) l).map
      (Prod.snd ∘ fun r => (r.subsetName, r.replicas))).sum
      = sumRepl (allocatedRecords T (some S) l) := rfl
  rw [hsum]
  simp only [allocatedRecords]
  split_ifs with heff
  · simp only [Option.getD_some]
    have hparts := effective_parts heff
    by_cases hk : specifiedCount S l = l.length
    · rw [normalAllocate_left_zero hk,
        step1_sum_all_specified (all_specified_of_count hk),
        recordSpecSum_eq_specifiedSum hnames hkeys hsub]
      exact hparts.2 hk
    · refine normalAllocate_sum_left_pos hflags hk ?_
      rw [recordSpecSum_eq_specifiedSum hnames hkeys hsub]
      omega
  · exact incrementalAllocate_sum hT hrep hne

/-- Witness for the amended C1. -/
theorem AllocateReplicas_sum_total_witness :
    ((AllocateReplicas 10 (some [("a", 8), ("b", 8)])
      [⟨"a", 2, false⟩, ⟨"b", 8, false⟩]).1.map Prod.snd).sum = 10 :=
  AllocateReplicas_sum_total 10 [("a", 8), ("b", 8)]
    [⟨"a", 2, false⟩, ⟨"b", 8, false⟩]
    (by decide) (by decide) (by decide) (by decide) (by decide) (by decide)
    (by decide)

/- ### C6: non-negativity -/

/-- C6: with a non-negative total, specified counts within the total, and
non-negative current replicas (plus the documented uniqueness
preconditions), every replica count returned by either allocator path is
non-negative. -/
theorem AllocateReplicas_nonneg (T : Int) (S : List (String × Int))
    (l : List NameToReplicas)
    (hT : 0 ≤ T)
    (hflags : ∀ r ∈ l, r.specified = false)
    (hnames : (l.map (·.subsetName)).Nodup)
    (hkeys : (S.map Prod.fst).Nodup)
    (hsub : ∀ k ∈ S.map Prod.fst, k ∈ l.map (·.subsetName))
    (hrep : ∀ r ∈ l, 0 ≤ r.replicas)
    (hv : ∀ pr ∈ S, 0 ≤ pr.2 ∧ pr.2 ≤ T) :
    ∀ pr ∈ (AllocateReplicas T (some S) l).1, 0 ≤ pr.2 := by
  have hvs : ∀ pr ∈ S, 0 ≤ pr.2 := fun pr h => (hv pr h).1
  have hrecnn : ∀ r ∈ allocatedRecords T (some S) l, 0 ≤ r.replicas := by
    simp only [allocatedRecords]
    split_ifs with heff
    · simp only [Option.getD_some]
      refine normalAllocate_nonneg hvs hrep ?_
      rw [recordSpecSum_eq_specifiedSum hnames hkeys hsub]
      have := (effective_parts heff).1
      omega
    · exact incrementalAllocate_nonneg hT hrep
  have hnodup2 : ((allocatedRecords T (some S) l).map (·.subsetName)).Nodup := by
    rw [allocatedRecords_names]; exact hnames
  have hmapeq : (AllocateReplicas T (some S) l).1
      = (allocatedRecords T (some S) l).map
          (fun r => (r.subsetName, r.replicas)) := by
    simp only [AllocateReplicas]
    exact toSubsetReplicaMap_eq_map hnodup2
  rw [hmapeq]
  intro pr hpr
  rcases List.mem_map.mp hpr with ⟨r, hr, hre⟩
  rw [← hre]
  exact hrecnn r hr

/-- Witness for C6. -/
theorem AllocateReplicas_nonneg_witness :
    ("a", (3 : Int)) ∈ (AllocateReplicas 9 (some [("a", 8), ("b", 8)])
      [⟨"a", 2, false⟩, ⟨"b", 2, false⟩, ⟨"c", 2, false⟩]).1
    ∧ (0 : Int) ≤ ("a", (3 : Int)).2 :=
  ⟨by decide,
    AllocateReplicas_nonneg 9 [("a", 8), ("b", 8)]
      [⟨"a", 2, false⟩, ⟨"b", 2, false⟩, ⟨"c", 2, false⟩]
      (by decide) (by decide) (by decide) (by decide) (by decide) (by decide)
      (by decide) ("a", (3 : Int)) (by decide)⟩

/- ### C2 and C7 -/

/-- C2: the feasibility check returns infeasible exactly when the specified
sum exceeds the total, or when it falls short of the total while every
subset is specified; a nil map is feasible, and a feasible outcome carries
an empty reason string. -/
theorem effectiveReplicas_characterization (T : Int) (S : List (String × Int))
    (l : List NameToReplicas) :
    effectiveReplicas T none l = (true, "")
    ∧ ((effectiveReplicas T (some S) l).1 = false ↔
        (T < specifiedSum S ∨
          (specifiedSum S < T ∧ specifiedCount S l = l.length)))
    ∧ ((effectiveReplicas T (some S) l).1 = true →
        (effectiveReplicas T (some S) l).2 = "") := by
  refine ⟨rfl, ?_, ?_⟩ <;>
    simp only [effectiveReplicas] <;>
    split_ifs with h1 h2 <;>
    simp_all [Bool.and_eq_true, decide_eq_true_eq, beq_iff_eq]

/-- Witness for C2 at a concrete infeasible input. -/
theorem effectiveReplicas_characterization_witness :
    (effectiveReplicas 5 (some [("a", 6)]) []).1 = false :=
  ((effectiveReplicas_characterization 5 [("a", 6)] []).2.1).mpr
    (Or.inl (by decide))

/-- C7: when the requested total equals the sum of the current replicas, the
incremental allocator changes no record, and the returned mapping is the
current mapping. -/
theorem incrementalAllocate_diff_zero (T : Int) (l : List NameToReplicas)
    (h : sumRepl l = T) :
    incrementalAllocate T l = l
    ∧ toSubsetReplicaMap (incrementalAllocate T l) = toSubsetReplicaMap l := by
  have : incrementalAllocate T l = l := by
    simp [incrementalAllocate, h]
  exact ⟨this, by rw [this]⟩

/-- Witness for C7. -/
theorem incrementalAllocate_diff_zero_witness :
    sumRepl [⟨"a", 2, false⟩, ⟨"b", 3, false⟩] = 5
    ∧ incrementalAllocate 5 [⟨"a", 2, false⟩, ⟨"b", 3, false⟩]
        = [⟨"a", 2, false⟩, ⟨"b", 3, false⟩] :=
  ⟨by decide,
    (incrementalAllocate_diff_zero 5 [⟨"a", 2, false⟩, ⟨"b", 3, false⟩]
      (by decide)).1⟩

/- ### C3: pinned fidelity on the feasible path -/

/-- C3: when the specified-replica constraints pass the feasibility check,
every record named in the specified map ends with exactly its specified
value and the pinned mark, the distribution step never overwrites it, and
the returned mapping reports the specified value for that subset. -/
theorem normalAllocate_pinned_fidelity (T : Int) (S : List (String × Int))
    (l : List NameToReplicas) (n : String) (v : Int)
    (hnodup : (l.map (·.subsetName)).Nodup)
    (heff : (effectiveReplicas T (some S) l).1 = true)
    (hS : S.lookup n = some v)
    (hmem : n ∈ l.map (·.subsetName)) :
    (AllocateReplicas T (some S) l).1.lookup n = some v
    ∧ ∀ r ∈ allocatedRecords T (some S) l, ∀ w : Int,
        S.lookup r.subsetName = some w → r.replicas = w ∧ r.specified = true := by
  have hrec : allocatedRecords T (some S) l = normalAllocate T S l := by
    simp [allocatedRecords, heff]
  have hstep : ∀ r ∈ normalAllocate T S l, ∀ w : Int,
      S.lookup r.subsetName = some w → r.replicas = w ∧ r.specified = true := by
    have hmain : ∀ r ∈ l.map (applySpec S), ∀ w : Int,
        S.lookup r.subsetName = some w → r.replicas = w ∧ r.specified = true := by
      intro r hr w hw
      rcases List.mem_map.mp hr with ⟨r0, _, hr0e⟩
      subst hr0e
      rw [applySpec_name] at hw
      rw [applySpec_of_lookup_some hw]
      exact ⟨rfl, rfl⟩
    intro r hr w hw
    simp only [normalAllocate] at hr
    split_ifs at hr with h
    · rw [List.mem_reverse] at hr
      rcases mem_distributeRev _ _ _ _ hr with
        ⟨_, hmem2⟩ | ⟨s, hsmem, hsspec, hname, _, _⟩
      · exact hmain r (List.mem_reverse.mp hmem2) w hw
      · exfalso
        rw [List.mem_reverse] at hsmem
        rcases List.mem_map.mp hsmem with ⟨s0, _, hs0e⟩
        rw [hname] at hw
        subst hs0e
        rw [applySpec_name] at hw
        rw [applySpec_of_lookup_some hw] at hsspec
        simp at hsspec
    · exact hmain r hr w hw
  refine ⟨?_, by rw [hrec]; exact hstep⟩
  have hnames : (normalAllocate T S l).map (·.subsetName) = l.map (·.subsetName) :=
    normalAllocate_names T S l
  have hnodup2 : ((normalAllocate T S l).map (·.subsetName)).Nodup := by
    rw [hnames]; exact hnodup
  have hmem2 : n ∈ (normalAllocate T S l).map (·.subsetName) := by
    rw [hnames]; exact hmem
  rcases List.mem_map.mp hmem2 with ⟨r, hrmem, hre⟩
  have hrv := hstep r hrmem v (by rw [hre]; exact hS)
  have hmap : (AllocateReplicas T (some S) l).1
      = (normalAllocate T S l).map (fun x => (x.subsetName, x.replicas)) := by
    simp only [AllocateReplicas, hrec, Option.getD_some]
    exact toSubsetReplicaMap_eq_map hnodup2
  rw [hmap, ← hre, lookup_map_pair hnodup2 hrmem, hrv.1]

/-- Witness for C3. -/
theorem normalAllocate_pinned_fidelity_witness :
    (AllocateReplicas 10 (some [("a", 7)])
      [⟨"a", 2, false⟩, ⟨"b", 8, false⟩]).1.lookup "a" = some 7 :=
  (normalAllocate_pinned_fidelity 10 [("a", 7)]
    [⟨"a", 2, false⟩, ⟨"b", 8, false⟩] "a" 7
    (by decide) (by decide) (by decide) (by decide)).1

/- ### C4: the fair distribution walk -/

/-- C4: on the feasible path with at least one unspecified subset, walking
the record list from the highest index down and skipping pinned records,
the first remainder-many unpinned records take average+1 and the rest take
the average, so any two unpinned targets differ by at most 1. -/
theorem normalAllocate_fair_walk (T : Int) (S : List (String × Int))
    (l : List NameToReplicas)
    (hflags : ∀ r ∈ l, r.specified = false)
    (hnames : (l.map (·.subsetName)).Nodup)
    (hkeys : (S.map Prod.fst).Nodup)
    (hsub : ∀ k ∈ S.map Prod.fst, k ∈ l.map (·.subsetName))
    (heff : (effectiveReplicas T (some S) l).1 = true)
    (hk : specifiedCount S l ≠ l.length) :
    ((normalAllocate T S l).reverse.filter (fun r => !r.specified)).map
        (·.replicas)
      = List.replicate (fairRemainder T S l).toNat (fairAverage T S l + 1) ++
        List.replicate ((l.length - specifiedCount S l) -
          (fairRemainder T S l).toNat) (fairAverage T S l)
    ∧ ∀ a ∈ normalAllocate T S l, ∀ b ∈ normalAllocate T S l,
        a.specified = false → b.specified = false →
        a.replicas - b.replicas ≤ 1 ∧ b.replicas - a.replicas ≤ 1 := by
  have hstep := step1_unspecCount (S := S) hflags
  have halloc : 0 ≤ T - recordSpecSum S l := by
    rw [recordSpecSum_eq_specifiedSum hnames hkeys hsub]
    have := specifiedSum_le_of_effective heff
    omega
  set alloc := T - recordSpecSum S l with halloc_def
  set left : Nat := l.length - specifiedCount S l with hleft_def
  have hleft : 0 < left := by omega
  have hleftZ : (0 : Int) < (left : Int) := by exact_mod_cast hleft
  have htmod : Int.tmod alloc (left : Int) = alloc % (left : Int) :=
    Int.tmod_eq_emod halloc (by positivity)
  have hmod0 : 0 ≤ Int.tmod alloc (left : Int) := by
    rw [htmod]; exact Int.emod_nonneg alloc (by omega)
  have hmodlt : Int.tmod alloc (left : Int) < (left : Int) := by
    rw [htmod]; exact Int.emod_lt_of_pos alloc hleftZ
  have hunspec : unspecCount ((l.map (applySpec S)).reverse) = left := by
    rw [unspecCount_reverse, hstep.1]
  have hna : normalAllocate T S l
      = (distributeRev (fairAverage T S l) (fairRemainder T S l)
          ((l.map (applySpec S)).reverse)).reverse := by
    simp only [normalAllocate, fairAverage, fairRemainder,
      if_pos (show left ≠ 0 by omega)]
  have hdist := distributeRev_unspec_map (fairAverage T S l)
    ((l.map (applySpec S)).reverse) (fairRemainder T S l) hmod0
    (by rw [hunspec]; exact le_of_lt hmodlt)
  constructor
  · rw [hna, List.reverse_reverse, hdist, hunspec]
  · intro a ha b hb haf hbf
    have hval : ∀ c ∈ normalAllocate T S l, c.specified = false →
        c.replicas = fairAverage T S l ∨ c.replicas = fairAverage T S l + 1 := by
      intro c hc hcf
      rw [hna, List.mem_reverse] at hc
      rcases mem_distributeRev _ _ _ _ hc with ⟨htrue, _⟩ | ⟨_, _, _, _, _, hv⟩
      · rw [hcf] at htrue; cases htrue
      · exact hv
    rcases hval a ha haf with h1 | h1 <;> rcases hval b hb hbf with h2 | h2 <;>
      rw [h1, h2] <;> omega

/-- Witness for C4. -/
theorem normalAllocate_fair_walk_witness :
    ((normalAllocate 10 [] [⟨"a", 0, false⟩, ⟨"b", 0, false⟩,
        ⟨"c", 0, false⟩]).reverse.filter (fun r => !r.specified)).map
        (·.replicas)
      = List.replicate (fairRemainder 10 []
          [⟨"a", 0, false⟩, ⟨"b", 0, false⟩, ⟨"c", 0, false⟩]).toNat
          (fairAverage 10 [] [⟨"a", 0, false⟩, ⟨"b", 0, false⟩,
            ⟨"c", 0, false⟩] + 1) ++
        List.replicate ((3 : Nat) - (fairRemainder 10 []
          [⟨"a", 0, false⟩, ⟨"b", 0, false⟩, ⟨"c", 0, false⟩]).toNat)
          (fairAverage 10 [] [⟨"a", 0, false⟩, ⟨"b", 0, false⟩,
            ⟨"c", 0, false⟩]) :=
  (normalAllocate_fair_walk 10 []
    [⟨"a", 0, false⟩, ⟨"b", 0, false⟩, ⟨"c", 0, false⟩]
    (by decide) (by decide) (by decide) (by decide) (by decide) (by decide)).1

/- ### C9: empty topology -/

/-- C9: with an empty topology and a positive requested total, the derived
specified map and record list are empty, the feasibility check reports
infeasible (the specified sum 0 falls short of the total while every one of
the zero subsets is specified), and the incremental path returns an empty
mapping summing to 0 rather than to the total. -/
theorem empty_topology_short {σ : Type} (parse : Int → σ → Option Int)
    (nameToSubset : List (String × Int)) (T : Int) (hT : 0 < T) :
    getSpecifiedSubsetReplicas parse T ([] : List (SubsetDef σ)) = []
    ∧ getSubsetInfos nameToSubset ([] : List (SubsetDef σ)) = []
    ∧ (effectiveReplicas T (some []) ([] : List NameToReplicas)).1 = false
    ∧ (AllocateReplicas T (some []) ([] : List NameToReplicas)).1 = []
    ∧ ((AllocateReplicas T (some []) ([] : List NameToReplicas)).1.map
        Prod.snd).sum = 0
    ∧ ((AllocateReplicas T (some []) ([] : List NameToReplicas)).1.map
        Prod.snd).sum ≠ T := by
  have heff : (effectiveReplicas T (some []) ([] : List NameToReplicas)).1
      = false := by
    have h1 : ¬ specifiedSum [] > T := by
      simp [specifiedSum]
      omega
    have h2 : (decide (specifiedSum [] < T) &&
        (specifiedCount [] ([] : List NameToReplicas) ==
          ([] : List NameToReplicas).length)) = true := by
      simp [specifiedSum, specifiedCount]
      omega
    simp only [effectiveReplicas, if_neg h1, if_pos h2]
  have hrecs : allocatedRecords T (some []) ([] : List NameToReplicas)
      = [] := by
    simp only [allocatedRecords, heff, Bool.false_eq_true, if_false,
      incrementalAllocate]
    have hd : (0 : Int) < T - sumRepl [] := by
      simp [sumRepl]
      omega
    rw [if_pos hd, incHigh_nil]
  have hmap : (AllocateReplicas T (some []) ([] : List NameToReplicas)).1
      = [] := by
    simp only [AllocateReplicas, hrecs]
    rfl
  refine ⟨rfl, rfl, heff, hmap, ?_, ?_⟩
  · rw [hmap]
    rfl
  · rw [hmap]
    simpa using (by omega : (0 : Int) ≠ T)

/-- Witness for C9. -/
theorem empty_topology_short_witness :
    (AllocateReplicas 1 (some []) ([] : List NameToReplicas)).1 = [] :=
  (@empty_topology_short Unit (fun _ _ => (some 0 : Option Int))
    ([] : List (String × Int)) 1 (by decide)).2.2.2.1

/- ### C8: determinism of the ordering and the pipeline -/

lemma less_iff {a b : NameToReplicas} :
    less a b = true ↔
      (a.replicas < b.replicas
        ∨ (a.replicas = b.replicas ∧ a.subsetName < b.subsetName)) := by
  by_cases h : a.replicas = b.replicas
  · simp [less, h, lt_irrefl]
  · simp [less, h]

lemma less_asymm {a b : NameToReplicas} (h1 : less a b = true)
    (h2 : less b a = true) : False := by
  rw [less_iff] at h1 h2
  rcases h1 with h1 | ⟨h1, h1n⟩ <;> rcases h2 with h2 | ⟨h2, h2n⟩
  · omega
  · omega
  · omega
  · exact lt_asymm h1n h2n

lemma leOrder_eq_true {a b : NameToReplicas} :
    leOrder a b = true ↔ ¬ less b a = true := by
  simp [leOrder]

lemma leOrder_total : ∀ a b : NameToReplicas,
    (leOrder a b || leOrder b a) = true := by
  intro a b
  rw [Bool.or_eq_true, leOrder_eq_true, leOrder_eq_true]
  by_cases h : less b a = true
  · exact Or.inr fun h2 => less_asymm h2 h
  · exact Or.inl h

lemma leOrder_trans : ∀ a b c : NameToReplicas,
    leOrder a b = true → leOrder b c = true → leOrder a c = true := by
  intro a b c h1 h2
  rw [leOrder_eq_true] at h1 h2 ⊢
  intro h3
  rw [less_iff] at h1 h2 h3
  push_neg at h1 h2
  rcases h3 with h3 | ⟨h3, h3n⟩
  · omega
  · have hba : b.replicas = a.replicas := by omega
    have hcb : c.replicas = b.replicas := by omega
    have hab : a.subsetName ≤ b.subsetName := le_of_not_lt (h1.2 hba)
    have hbc : b.subsetName ≤ c.subsetName := le_of_not_lt (h2.2 hcb)
    exact absurd h3n (not_lt.mpr (le_trans hab hbc))

lemma sortSubsets_sorted (l : List NameToReplicas) :
    (sortSubsets l).Pairwise (fun a b => leOrder a b = true) := by
  simp only [sortSubsets]
  exact List.sorted_mergeSort leOrder_trans leOrder_total l

lemma sortSubsets_perm (l : List NameToReplicas) :
    (sortSubsets l).Perm l := by
  simp only [sortSubsets]
  exact List.mergeSort_perm l leOrder

/-- Two sorted lists that are permutations of each other and carry unique
names are equal: the (replicas, name) key is antisymmetric on them. -/
lemma sorted_perm_nodup_eq :
    ∀ (l₁ l₂ : List NameToReplicas), l₁.Perm l₂ →
      l₁.Pairwise (fun a b => leOrder a b = true) →
      l₂.Pairwise (fun a b => leOrder a b = true) →
      (l₁.map (·.subsetName)).Nodup → l₁ = l₂ := by
  intro l₁
  induction l₁ with
  | nil => intro l₂ hp _ _ _; exact hp.nil_eq
  | cons a t₁ ih =>
    intro l₂ hp hs₁ hs₂ hnd
    have ha₂ : a ∈ l₂ := hp.mem_iff.mp (List.mem_cons_self _ _)
    cases l₂ with
    | nil => cases ha₂
    | cons b t₂ =>
      have hab : a = b := by
        rcases List.mem_cons.mp ha₂ with h | h
        · exact h
        · have hb₁ : b ∈ a :: t₁ :=
            hp.symm.mem_iff.mp (List.mem_cons_self _ _)
          rcases List.mem_cons.mp hb₁ with h2 | h2
          · exact h2.symm
          · exfalso
            have h3 : leOrder a b = true := (List.pairwise_cons.mp hs₁).1 b h2
            have h4 : leOrder b a = true := (List.pairwise_cons.mp hs₂).1 a h
            have hname : a.subsetName = b.subsetName := by
              rw [leOrder_eq_true] at h3 h4
              rw [less_iff] at h3 h4
              push_neg at h3 h4
              have hr : a.replicas = b.replicas := by omega
              have hn1 := h3.2 (hr.symm)
              have hn2 := h4.2 hr
              exact le_antisymm hn1 hn2
            rw [List.map_cons] at hnd
            exact (List.nodup_cons.mp hnd).1
              (hname ▸ List.mem_map_of_mem (·.subsetName) h2)
      subst hab
      have ht : t₁.Perm t₂ := hp.cons_inv
      have heq := ih t₂ ht (List.pairwise_cons.mp hs₁).2
        (List.pairwise_cons.mp hs₂).2
        (by rw [List.map_cons] at hnd; exact (List.nodup_cons.mp hnd).2)
      rw [heq]

/-- Go map lookups depend only on map content: with unique keys a
permutation of the association list has identical lookups. -/
lemma lookup_perm : ∀ {S₁ S₂ : List (String × Int)}, S₁.Perm S₂ →
    (S₁.map Prod.fst).Nodup → ∀ k, S₁.lookup k = S₂.lookup k := by
  intro S₁ S₂ hp
  induction hp with
  | nil => intro _ _; rfl
  | cons p hpt ih =>
    intro hnd k
    rw [List.map_cons] at hnd
    have ht := ih (List.nodup_cons.mp hnd).2
    by_cases hb : (k == p.1) = true
    · simp only [List.lookup, hb]
    · have hbf : (k == p.1) = false := by simpa using hb
      simp only [List.lookup, hbf]
      exact ht k
  | swap x y t =>
    intro hnd k
    rw [List.map_cons, List.map_cons] at hnd
    have hxy : y.1 ≠ x.1 := by
      have h0 := (List.nodup_cons.mp hnd).1
      intro he
      exact h0 (by rw [he]; exact List.mem_cons_self _ _)
    by_cases h1 : (k == y.1) = true
    · have hk : k = y.1 := beq_iff_eq.mp h1
      have h2 : (k == x.1) = false := beq_eq_false_iff_ne.mpr
        (fun he => hxy (by rw [← hk]; exact he))
      simp only [List.lookup, h1, h2]
    · have h1f : (k == y.1) = false := by simpa using h1
      by_cases h2 : (k == x.1) = true
      · simp only [List.lookup, h1f, h2]
      · have h2f : (k == x.1) = false := by simpa using h2
        simp only [List.lookup, h1f, h2f]
  | trans hp1 hp2 ih1 ih2 =>
    intro hnd k
    rw [ih1 hnd k]
    exact ih2 (((hp1.map Prod.fst).nodup_iff).mp hnd) k

lemma applySpec_congr {S₁ S₂ : List (String × Int)}
    (hlook : ∀ k, S₁.lookup k = S₂.lookup k) (r : NameToReplicas) :
    applySpec S₁ r = applySpec S₂ r := by
  unfold applySpec
  rw [hlook]

lemma specifiedCount_congr {S₁ S₂ : List (String × Int)}
    (hlook : ∀ k, S₁.lookup k = S₂.lookup k) (l : List NameToReplicas) :
    specifiedCount S₁ l = specifiedCount S₂ l := by
  unfold specifiedCount
  rw [List.filter_congr fun r _ => by rw [hlook]]

lemma recordSpecSum_congr {S₁ S₂ : List (String × Int)}
    (hlook : ∀ k, S₁.lookup k = S₂.lookup k) (l : List NameToReplicas) :
    recordSpecSum S₁ l = recordSpecSum S₂ l := by
  unfold recordSpecSum
  rw [List.filterMap_congr fun r _ => by rw [hlook]]

lemma effectiveReplicas_congr {T : Int} {S₁ S₂ : List (String × Int)}
    (hsum : specifiedSum S₁ = specifiedSum S₂)
    (hlook : ∀ k, S₁.lookup k = S₂.lookup k) (l : List NameToReplicas) :
    effectiveReplicas T (some S₁) l = effectiveReplicas T (some S₂) l := by
  simp only [effectiveReplicas, hsum, specifiedCount_congr hlook]

lemma normalAllocate_congr {T : Int} {S₁ S₂ : List (String × Int)}
    (hlook : ∀ k, S₁.lookup k = S₂.lookup k) (l : List NameToReplicas) :
    normalAllocate T S₁ l = normalAllocate T S₂ l := by
  have h3 : l.map (applySpec S₁) = l.map (applySpec S₂) :=
    List.map_congr_left fun r _ => applySpec_congr hlook r
  simp only [normalAllocate, specifiedCount_congr hlook,
    recordSpecSum_congr hlook, h3]

lemma allocatedRecords_congr {T : Int} {S₁ S₂ : List (String × Int)}
    (hsum : specifiedSum S₁ = specifiedSum S₂)
    (hlook : ∀ k, S₁.lookup k = S₂.lookup k) (l : List NameToReplicas) :
    allocatedRecords T (some S₁) l = allocatedRecords T (some S₂) l := by
  simp only [allocatedRecords, effectiveReplicas_congr hsum hlook,
    Option.getD_some, normalAllocate_congr hlook]

/-- C8: identical input content — the record multiset with unique names and
the specified map content with unique keys, in any order — yields the same
sorted sequence, the same allocation result, and the same debug string; the
(replicas, name) key is a strict total order on records. -/
theorem allocate_deterministic (T : Int) (S₁ S₂ : List (String × Int))
    (l₁ l₂ : List NameToReplicas)
    (hl : l₁.Perm l₂)
    (hnames : (l₁.map (·.subsetName)).Nodup)
    (hS : S₁.Perm S₂)
    (hkeys : (S₁.map Prod.fst).Nodup) :
    sortSubsets l₁ = sortSubsets l₂
    ∧ AllocateReplicas T (some S₁) (sortSubsets l₁)
        = AllocateReplicas T (some S₂) (sortSubsets l₂)
    ∧ debugString (allocatedRecords T (some S₁) (sortSubsets l₁))
        = debugString (allocatedRecords T (some S₂) (sortSubsets l₂))
    ∧ ∀ a b : NameToReplicas,
        less a b = true ∨ less b a = true
        ∨ (a.replicas = b.replicas ∧ a.subsetName = b.subsetName) := by
  have hlook := lookup_perm hS hkeys
  have hsum : specifiedSum S₁ = specifiedSum S₂ := by
    unfold specifiedSum
    exact (hS.map Prod.snd).sum_eq
  have hperm : (sortSubsets l₁).Perm (sortSubsets l₂) :=
    (sortSubsets_perm l₁).trans (hl.trans (sortSubsets_perm l₂).symm)
  have hnd₁ : ((sortSubsets l₁).map (·.subsetName)).Nodup :=
    (((sortSubsets_perm l₁).map (·.subsetName)).nodup_iff).mpr hnames
  have hsort : sortSubsets l₁ = sortSubsets l₂ :=
    sorted_perm_nodup_eq _ _ hperm (sortSubsets_sorted l₁)
      (sortSubsets_sorted l₂) hnd₁
  refine ⟨hsort, ?_, ?_, ?_⟩
  · rw [hsort]
    simp only [AllocateReplicas, allocatedRecords_congr hsum hlook,
      effectiveReplicas_congr hsum hlook]
  · rw [hsort, allocatedRecords_congr hsum hlook]
  · intro a b
    rcases lt_trichotomy a.replicas b.replicas with h | h | h
    · exact Or.inl (less_iff.mpr (Or.inl h))
    · rcases lt_trichotomy a.subsetName b.subsetName with hn | hn | hn
      · exact Or.inl (less_iff.mpr (Or.inr ⟨h, hn⟩))
      · exact Or.inr (Or.inr ⟨h, hn⟩)
      · exact Or.inr (Or.inl (less_iff.mpr (Or.inr ⟨h.symm, hn⟩)))
    · exact Or.inr (Or.inl (less_iff.mpr (Or.inl h)))

/-- Witness for C8. -/
theorem allocate_deterministic_witness :
    AllocateReplicas 10 (some [("a", 7), ("b", 1)])
        (sortSubsets [⟨"b", 8, false⟩, ⟨"a", 2, false⟩])
      = AllocateReplicas 10 (some [("b", 1), ("a", 7)])
        (sortSubsets [⟨"a", 2, false⟩, ⟨"b", 8, false⟩]) :=
  (allocate_deterministic 10 [("a", 7), ("b", 1)] [("b", 1), ("a", 7)]
    [⟨"b", 8, false⟩, ⟨"a", 2, false⟩] [⟨"a", 2, false⟩, ⟨"b", 8, false⟩]
    (List.Perm.swap _ _ _) (by decide) (List.Perm.swap _ _ _)
    (by decide)).2.1

end Allocator
